import Mathlib

/-!
Verification development for the gocd company-designator parser
(ProfoundNetworks/gocd).  The Go sources are shallowly embedded:

* pure string manipulation (pattern escaping, tier filtering, the
  blacklist, the `Parse` control flow) is translated directly into
  executable Lean functions;
* the external collaborators — the Go `regexp` engine and the
  `golang.org/x/text/unicode/norm` normalizer — are modelled by
  function parameters (a compiled regular expression becomes a
  `String → Option …` submatch function, the normalizer becomes an
  `Env` of `String → String` functions), plus an explicit declarative
  semantics for the fixed tier templates where a claim depends on
  what the regular expressions actually match.

Namespace `Gocd` embeds `src/gocd.go` (the five-tier regexp engine).
Namespace `Gocd.V2` embeds the later variant of the same engine found
in `src/unnamed/part_003` (separator capture + `checkDesPunct`,
ampersand escaping, and empty-alternation guards in `New`).
-/

namespace Gocd


/-- Unicode separator class `\pZ` (categories Zs, Zl, Zp), the class the
Go sources use in `StrEndBefore`/`StrBeginAfter`/… and in the `Space`,
`SpaceDotSpace` and `ParenSpace` helper regexes.  This is the complete
category table. -/
def isPZ (c : Char) : Bool :=
  let n := c.toNat
  n = 0x20 || n = 0xA0 || n = 0x1680 ||
  (0x2000 ≤ n && n ≤ 0x200A) || n = 0x2028 || n = 0x2029 ||
  n = 0x202F || n = 0x205F || n = 0x3000

/-- Unicode punctuation class `\pP`, restricted to the blocks exercised by
this development (ASCII punctuation, general punctuation, CJK symbols,
fullwidth forms).  The full category contains further blocks; every
concrete string appearing in a theorem below stays inside this table, so
the restriction does not affect any stated result.  Note that the ASCII
characters `+ < = > | ~ $ ^` are in category S, not P, and are therefore
correctly absent. -/
def isPP (c : Char) : Bool :=
  let n := c.toNat
  (0x21 ≤ n && n ≤ 0x23) || (0x25 ≤ n && n ≤ 0x2A) ||
  (0x2C ≤ n && n ≤ 0x2F) || n = 0x3A || n = 0x3B || n = 0x3F || n = 0x40 ||
  (0x5B ≤ n && n ≤ 0x5D) || n = 0x5F || n = 0x7B || n = 0x7D ||
  (0x2010 ≤ n && n ≤ 0x2027) || (0x2030 ≤ n && n ≤ 0x2043) ||
  (0x2045 ≤ n && n ≤ 0x2051) || (0x2053 ≤ n && n ≤ 0x205E) ||
  (0x3001 ≤ n && n ≤ 0x3003) || (0x3008 ≤ n && n ≤ 0x3011) ||
  (0x3014 ≤ n && n ≤ 0x301F) || n = 0x30FB ||
  (0xFF01 ≤ n && n ≤ 0xFF03) || (0xFF05 ≤ n && n ≤ 0xFF0A) ||
  (0xFF0C ≤ n && n ≤ 0xFF0F) || n = 0xFF1A || n = 0xFF1B ||
  n = 0xFF1F || n = 0xFF20 || (0xFF3B ≤ n && n ≤ 0xFF3D) || n = 0xFF3F

/-- The separator class `[\pZ\pP]` used before an `End`-tier designator and
after a `Begin`-tier designator. -/
def isZP (c : Char) : Bool := isPZ c || isPP c

/-- RE2 whitespace class `\s` = `[\t\n\f\r ]`; used by the replacement
fragment the V2 `escapeDes` substitutes for ampersands. -/
def isWS (c : Char) : Bool :=
  c = ' ' || c = '\t' || c = '\n' || c.toNat = 0x0C || c.toNat = 0x0D

/-- The four parenthesis characters of the Go `Paren`/`ParenSpace` regexes:
`(`, `)`, U+FF08, U+FF09. -/
def isParen (c : Char) : Bool :=
  c = '(' || c = ')' || c.toNat = 0xFF08 || c.toNat = 0xFF09

/-- Case folding used to model the `(?i)` flag the Go code passes to
`regexp.MustCompile`.  ASCII simple folding (RE2 additionally folds
non-ASCII letters; no statement below depends on non-ASCII folding). -/
def foldChar (c : Char) : Char :=
  if 0x41 ≤ c.toNat && c.toNat ≤ 0x5A then Char.ofNat (c.toNat + 0x20) else c

/-- `PositionType` from src/gocd.go: the five matching tiers plus `None`. -/
inductive PositionType where
  | None
  | End
  | EndFallback
  | EndCont
  | Begin
  | BeginFallback
deriving DecidableEq, Repr

/-- `Result` from src/gocd.go.  `Designator`'s Go zero value is the empty
string, made explicit here via a default field value. -/
structure Result where
  Input : String
  Matched : Bool := false
  ShortName : String
  Designator : String := ""
  Position : PositionType := PositionType.None
deriving DecidableEq, Repr

/-- A dataset `entry` from src/gocd.go (the yaml key is carried separately,
as in the Go `dataset` map; the unused `LongName`/`Doc` fields are kept for
shape fidelity). -/
structure entry where
  AbbrStd : String := ""
  Abbr : List String := []
  Lang : String := ""
  Lead : Bool := false
  Doc : String := ""
deriving DecidableEq, Repr

/-- The Go `dataset` map, embedded as an association list (Go map iteration
order is unspecified; the spec notes compilation must not depend on it). -/
abbrev dataset := List (String × entry)

/-- `LangContinua` from src/gocd.go: continuous-script languages that get
the no-word-break `EndCont` tier. -/
def LangContinua (lang : String) : Bool :=
  lang = "zh" || lang = "ja" || lang = "ko"

/-- `EndDesignatorBlacklist` from src/gocd.go: proper-subset designators
deferred to the fallback tiers. -/
def EndDesignatorBlacklist (s : String) : Bool :=
  s = "Vennootschap" || s = "L.L.C." || s = "L.C." || s = "Co." ||
  s = "Co. L.L.C."

/-- The Go `ASCII` helper regex `^[[:ascii:]]+$`: the whole string is one
or more ASCII characters. -/
def isASCII (s : String) : Bool :=
  !s.isEmpty && s.toList.all (fun c => c.toNat ≤ 0x7F)

/-- Model of the external Unicode collaborators: `norm.NFD.String`,
`norm.NFC.String` and the `UnicodeMarks` regex `\pM` used (as
`ReplaceAllString · ""`) to build diacritic-stripped pattern variants.
Claims that depend on properties of real Unicode normalization state them
as hypotheses on an arbitrary `Env`. -/
structure Env where
  nfd : String → String
  nfc : String → String
  stripMarks : String → String

/-- The trivial environment: on pure-ASCII strings real NFD, NFC and
mark-stripping are all the identity, so concrete ASCII scenarios are
evaluated in this environment. -/
def idEnv : Env := ⟨id, id, id⟩

/-! ### Escaping fragments and their matching semantics

`escapeDes` (both variants) maps each character / space-run of a
designator to a fixed regular-expression fragment.  A designator's
escaped pattern is the concatenation of those fragments, so we embed it
as a token list: `fragText` gives each token's literal regex text (what
the Go `ReplaceAllString` calls paste together) and `tokDrops` gives its
matching semantics (the possible remainders of an input after the
fragment has consumed a prefix). -/

/-- The character class `[\pZ,()-]` used by the V2 escaping fragments. -/
def isCls (c : Char) : Bool :=
  isPZ c || c = ',' || c = '(' || c = ')' || c = '-'

/-- One escaped-designator fragment.  `lit`/`esc` are shared; `dot1`/`sp1`
come from the src/gocd.go `escapeDes` (`Period`, `Space` passes);
`dot2`/`sp2`/`amp` from the V2 `escapeDes` (`PeriodSpace`, `Space`,
`Ampersand` passes). -/
inductive Tok where
  | lit (c : Char)
  | esc (c : Char)
  | dot1
  | sp1
  | dot2
  | sp2
  | amp
deriving DecidableEq, Repr

/-- The literal regex text each fragment contributes to the compiled
alternation — exactly the replacement strings of the Go sources. -/
def fragText : Tok → String
  | Tok.lit c => String.singleton c
  | Tok.esc c => (String.singleton '\\').push c
  | Tok.dot1 => r"\.*,?\pZ*"
  | Tok.sp1 => r",?\pZ+"
  | Tok.dot2 => r"\.*[\pZ,()-]*"
  | Tok.sp2 => r"[\pZ,()-]+"
  | Tok.amp => r"\s*[&+]\s*"

/-- All suffixes of `l` reachable by dropping a (possibly empty) prefix of
characters satisfying `p` — the semantics of a `class*` regex piece. -/
def dropsWhile (p : Char → Bool) : List Char → List (List Char)
  | [] => [[]]
  | c :: cs => (c :: cs) :: (if p c then dropsWhile p cs else [])

/-- Semantics of a `class+` regex piece: at least one character. -/
def plusDrops (p : Char → Bool) : List Char → List (List Char)
  | [] => []
  | c :: cs => if p c then dropsWhile p cs else []

/-- Semantics of an optional single character (`c?`). -/
def optDrops (c : Char) : List Char → List (List Char)
  | [] => [[]]
  | x :: xs => (x :: xs) :: (if x = c then [xs] else [])

/-- Matching semantics of one fragment: the list of possible remainders
after the fragment consumes a prefix of the input.  Literals are matched
case-insensitively, modelling the `(?i)` flag `New` passes to
`regexp.MustCompile`. -/
def tokDrops : Tok → List Char → List (List Char)
  | Tok.lit _, [] => []
  | Tok.lit c, x :: xs => if foldChar x = foldChar c then [xs] else []
  | Tok.esc _, [] => []
  | Tok.esc c, x :: xs => if x = c then [xs] else []
  | Tok.dot1, xs =>
      (dropsWhile (fun c => c = '.') xs).flatMap fun ys =>
        (optDrops ',' ys).flatMap (dropsWhile isPZ)
  | Tok.sp1, xs => (optDrops ',' xs).flatMap (plusDrops isPZ)
  | Tok.dot2, xs =>
      (dropsWhile (fun c => c = '.') xs).flatMap (dropsWhile isCls)
  | Tok.sp2, xs => plusDrops isCls xs
  | Tok.amp, xs =>
      (dropsWhile isWS xs).flatMap fun ys =>
        match ys with
        | [] => []
        | y :: ys' => if y = '&' || y = '+' then dropsWhile isWS ys' else []

/-- A token list matches the whole input (the alternation branches are
anchored on both sides inside the tier templates). -/
def toksMatch : List Tok → List Char → Bool
  | [], s => s.isEmpty
  | t :: ts, s => (tokDrops t s).any fun r => toksMatch ts r

/-- Tokenizer realising the src/gocd.go `escapeDes` (the composition of
its three `ReplaceAllString` passes).  The `Period` pass maps each `.` to
`\.*,?\pZ*`, the `Space` pass maps each maximal `\pZ` run to `,?\pZ+`,
the `Paren` pass escapes each parenthesis.  The passes commute into one
character scan because the period pass inserts no `\pZ` characters and
neither of the first two passes inserts a parenthesis.  The Boolean state
records whether the scanner is inside a separator run (whose `sp1` token
was emitted at the run's first character). -/
def tokV1 : Bool → List Char → List Tok
  | _, [] => []
  | inZ, c :: cs =>
    if isPZ c then
      if inZ then tokV1 true cs else Tok.sp1 :: tokV1 true cs
    else if c = '.' then Tok.dot1 :: tokV1 false cs
    else if isParen c then Tok.esc c :: tokV1 false cs
    else Tok.lit c :: tokV1 false cs

/-- The fragment sequence of `escapeDes` for a designator. -/
def tokenizeV1 (l : List Char) : List Tok := tokV1 false l

/-- `escapeDes` from src/gocd.go: the escaped regex text of a designator
string. -/
def escapeDes (des : String) : String :=
  String.join ((tokenizeV1 des.toList).map fragText)

/-- Matching semantics of `escapeDes des` as one `(?i)` alternation
branch: the input must be consumed exactly by the fragment sequence. -/
def desMatches (des : String) (s : String) : Bool :=
  toksMatch (tokenizeV1 des.toList) s.toList

/-! ### Pattern compilation (`addPattern` / `compileREPatterns`,
src/gocd.go lines 140–213) -/

/-- `addPattern` from src/gocd.go: skip `End`/`Begin` strings that are
blacklisted, skip `EndFallback`/`BeginFallback` strings that are not,
otherwise append the escaped NFD form and, when mark-stripping changes
it, also the diacritic-stripped variant. -/
def addPattern (env : Env) (patterns : List String) (s : String)
    (t : PositionType) : List String :=
  if (t = PositionType.End ∨ t = PositionType.Begin) ∧
      EndDesignatorBlacklist s then patterns
  else if (t = PositionType.EndFallback ∨ t = PositionType.BeginFallback) ∧
      ¬EndDesignatorBlacklist s then patterns
  else
    let s1 := escapeDes (env.nfd s)
    let patterns1 := patterns ++ [s1]
    let s2 := env.stripMarks s1
    if s2 ≠ s1 then patterns1 ++ [s2] else patterns1

/-- The abbreviation loop of `compileREPatterns`: pure-ASCII abbreviations
are skipped for the `EndCont` tier, every other abbreviation goes through
`addPattern`. -/
def addAbbrs (env : Env) (t : PositionType) :
    List String → List String → List String
  | [], patterns => patterns
  | a :: rest, patterns =>
      addAbbrs env t rest
        (if t = PositionType.EndCont ∧ isASCII a then patterns
         else addPattern env patterns a t)

/-- The per-entry body of the `compileREPatterns` loop: tier filters
(`Lead` for the begin tiers, `LangContinua` for `EndCont`), then the
canonical form and the abbreviations.  (`AbbrStd` is commented out in the
source and therefore absent here.) -/
def compileEntry (env : Env) (t : PositionType) (long : String) (e : entry)
    (patterns : List String) : List String :=
  if (t = PositionType.Begin ∨ t = PositionType.BeginFallback) ∧ ¬e.Lead then
    patterns
  else if t = PositionType.EndCont ∧ ¬LangContinua e.Lang then patterns
  else addAbbrs env t e.Abbr (addPattern env patterns long t)

/-- The dataset loop of `compileREPatterns`, accumulating patterns in
iteration order. -/
def compileREPatternsAux (env : Env) (t : PositionType) :
    dataset → List String → List String
  | [], patterns => patterns
  | kv :: rest, patterns =>
      compileREPatternsAux env t rest (compileEntry env t kv.1 kv.2 patterns)

/-- The alternation branches `compileREPatterns` collects for tier `t`. -/
def compileREPatternsList (env : Env) (ds : dataset) (t : PositionType) :
    List String :=
  compileREPatternsAux env t ds []

/-- `compileREPatterns` from src/gocd.go: the branches joined with `|`. -/
def compileREPatterns (env : Env) (ds : dataset) (t : PositionType) : String :=
  String.intercalate "|" (compileREPatternsList env ds t)

/-! ### Characterisation of the compiled pattern lists -/

/-- The escaped variants `addPattern` appends for one accepted string. -/
def patVariants (env : Env) (s : String) : List String :=
  let s1 := escapeDes (env.nfd s)
  if env.stripMarks s1 ≠ s1 then [s1, env.stripMarks s1] else [s1]

/-- Whether the two blacklist rules of `addPattern` accept string `s` for
tier `t`. -/
def stringAccepted (t : PositionType) (s : String) : Bool :=
  if (t = PositionType.End ∨ t = PositionType.Begin) ∧
      EndDesignatorBlacklist s then false
  else if (t = PositionType.EndFallback ∨ t = PositionType.BeginFallback) ∧
      ¬EndDesignatorBlacklist s then false
  else true

/-- Whether an abbreviation survives both the `EndCont` ASCII filter and
the blacklist rules. -/
def abbrKeep (t : PositionType) (a : String) : Bool :=
  if t = PositionType.EndCont ∧ isASCII a then false else stringAccepted t a

/-- Whether the entry-level filters of `compileREPatterns` keep entry `e`
for tier `t`. -/
def entryQualifies (t : PositionType) (e : entry) : Bool :=
  if (t = PositionType.Begin ∨ t = PositionType.BeginFallback) ∧ ¬e.Lead then
    false
  else if t = PositionType.EndCont ∧ ¬LangContinua e.Lang then false
  else true

/-- The raw dataset strings whose escaped forms make up tier `t`'s
alternation. -/
def tierSources (ds : dataset) (t : PositionType) : List String :=
  ds.flatMap fun kv =>
    if entryQualifies t kv.2 then
      (if stringAccepted t kv.1 then [kv.1] else []) ++
        kv.2.Abbr.filter (fun a => abbrKeep t a)
    else []

/-! ### Input preprocessing (`SpaceDotSpace`, `ParenSpace`) -/

/-- Scanner for `re["SpaceDotSpace"].ReplaceAllString(s, ". ")`, the
`\pZ+\.\pZ*` → `". "` normalisation of dotted initials: a nonempty
separator run followed by a period (and the period's trailing separator
run) becomes `". "`; scanning resumes after the match, as
`ReplaceAllString` does with leftmost non-overlapping matches.  The state
is `some pending` while reading a separator run that may yet become the
`\pZ+` of a match (`pending` holds its characters, emitted verbatim if no
period follows), and `none` while inside the `\pZ*` tail of a match. -/
def sdsAux : Option (List Char) → List Char → List Char
  | st, [] => match st with | some pending => pending | none => []
  | st, c :: cs =>
    match st with
    | none =>
      if isPZ c then sdsAux none cs
      else if c = '.' then '.' :: sdsAux (some []) cs
      else c :: sdsAux (some []) cs
    | some pending =>
      if isPZ c then sdsAux (some (pending ++ [c])) cs
      else if c = '.' then
        if pending.isEmpty then '.' :: sdsAux (some []) cs
        else '.' :: ' ' :: sdsAux none cs
      else pending ++ c :: sdsAux (some []) cs

/-- The `SpaceDotSpace` scan of a character list. -/
def sds (l : List Char) : List Char := sdsAux (some []) l

/-- `SpaceDotSpace` preprocessing on strings. -/
def replaceSpaceDotSpace (s : String) : String := String.mk (sds s.toList)

/-- Scanner for `re["ParenSpace"].ReplaceAllString(s, "")`, the
`\pZ*[()（）]\pZ*` → `""` parenthesis stripping applied before the
`EndCont` tier: every parenthesis is removed together with the separator
runs around it.  Same state discipline as `sdsAux`: `some pending` while
reading a separator run that a parenthesis may still claim, `none` while
inside the `\pZ*` tail of a match (where a following parenthesis starts a
new match directly). -/
def pssAux : Option (List Char) → List Char → List Char
  | st, [] => match st with | some pending => pending | none => []
  | st, c :: cs =>
    match st with
    | none =>
      if isPZ c then pssAux none cs
      else if isParen c then pssAux none cs
      else c :: pssAux (some []) cs
    | some pending =>
      if isPZ c then pssAux (some (pending ++ [c])) cs
      else if isParen c then pssAux none cs
      else pending ++ c :: pssAux (some []) cs

/-- The `ParenSpace` scan of a character list. -/
def pss (l : List Char) : List Char := pssAux (some []) l

/-- `ParenSpace` stripping on strings. -/
def replaceParenSpace (s : String) : String := String.mk (pss s.toList)

/-! ### The five-tier Parser of src/gocd.go -/

/-- The Parser of src/gocd.go.  Each compiled `*regexp.Regexp` is
modelled by its `FindStringSubmatch` behaviour: `none` when the pattern
does not match, otherwise the pair of the two capture groups
(`matches[1]`, `matches[2]`).  `New` compiles all five tier regexes
unconditionally in this variant, so the fields are total functions. -/
structure Parser where
  reEnd : String → Option (String × String)
  reEndFallback : String → Option (String × String)
  reEndCont : String → Option (String × String)
  reBegin : String → Option (String × String)
  reBeginFallback : String → Option (String × String)

/-- The result record built by the three `End`-reporting blocks of
`Parse`: group 1 is the short name, group 2 the designator. -/
def endResult (env : Env) (inputNFC : String) (g : String × String) : Result :=
  { Input := inputNFC, Matched := true, ShortName := env.nfc g.1,
    Designator := env.nfc g.2, Position := PositionType.End }

/-- The result record built by the two `Begin`-reporting blocks of
`Parse`: group 1 is the designator, group 2 the short name. -/
def beginResult (env : Env) (inputNFC : String) (g : String × String) : Result :=
  { Input := inputNFC, Matched := true, ShortName := env.nfc g.2,
    Designator := env.nfc g.1, Position := PositionType.Begin }

/-- The preprocessed match input of `Parse`: NFD followed by the
`SpaceDotSpace` normalisation. -/
def preInput (env : Env) (input : String) : String :=
  replaceSpaceDotSpace (env.nfd input)

/-- `Parser.Parse` from src/gocd.go: decompose the input, normalise the
dot-space pattern, then try the five tier regexes in order — `End`,
`EndFallback`, `EndCont` (on the parenthesis-stripped input), `Begin`,
`BeginFallback` — returning at the first match; fallback and continuous
matches are reported as `End`, `BeginFallback` as `Begin`. -/
def Parse (env : Env) (p : Parser) (input : String) : Result :=
  match p.reEnd (preInput env input) with
  | some g => endResult env (env.nfc input) g
  | none =>
    match p.reEndFallback (preInput env input) with
    | some g => endResult env (env.nfc input) g
    | none =>
      match p.reEndCont (replaceParenSpace (preInput env input)) with
      | some g => endResult env (env.nfc input) g
      | none =>
        match p.reBegin (preInput env input) with
        | some g => beginResult env (env.nfc input) g
        | none =>
          match p.reBeginFallback (preInput env input) with
          | some g => beginResult env (env.nfc input) g
          | none =>
            { Input := env.nfc input, Matched := false,
              ShortName := env.nfc input, Designator := "",
              Position := PositionType.None }

/-- The Go signature of `Parse` is `(*Result, error)`; every return
statement in the function passes a nil error, embedded as `Except.ok`. -/
def ParseGo (env : Env) (p : Parser) (input : String) : Except String Result :=
  Except.ok (Parse env p input)

/-- A parser none of whose tiers ever matches (used to instantiate
universally quantified statements at a concrete point). -/
def nullParser : Parser :=
  ⟨fun _ => none, fun _ => none, fun _ => none, fun _ => none, fun _ => none⟩

/-- The unmatched result `Parse` falls through to. -/
def noMatchResult (inputNFC : String) : Result :=
  { Input := inputNFC, Matched := false, ShortName := inputNFC,
    Designator := "", Position := PositionType.None }

/-- Concrete inputs and capture-group pairs used to instantiate the
universally quantified statements below. -/
def inpProfound : String := "Profound Networks"

def inpProfoundLLC : String := "Profound Networks LLC"

def gProfoundLLC : String × String := (inpProfound, r"LLC")

def inpFooCo : String := "Foo Co."

def gFooCo : String × String := (r"Foo", r"Co.")

def inpAccent : String := "Crédit"

/-- A parser whose `End` tier always matches with fixed groups (for
concrete instantiation). -/
def endOnlyParser (g : String × String) : Parser :=
  ⟨fun _ => some g, fun _ => none, fun _ => none, fun _ => none, fun _ => none⟩

/-- A parser whose only matching tier is `EndFallback` (for concrete
instantiation). -/
def endFallbackOnlyParser (g : String × String) : Parser :=
  ⟨fun _ => none, fun _ => some g, fun _ => none, fun _ => none, fun _ => none⟩

/-! ### Declarative semantics of the fixed tier templates

The tier regexes of src/gocd.go wrap an alternation `ALT` in fixed
context:

* `reEnd`/`reEndFallback`: `(?i)^\pZ*(.+?)\pZ*[\pZ\pP]\pZ*\(?(ALT)\)?\pZ*$`
* `reEndCont`:             `(?i)^\pZ*(.+?)\pZ*\(?(ALT)\)?\pZ*$`
* `reBegin`/`reBeginFallback`: `(?i)^\pZ*\(?(ALT)\)?[\pZ\pP]\pZ*(.+?)\pZ*$`

`FindStringSubmatch` returns nil exactly when no decomposition of the
input fits the template, so match *existence* is independent of the
engine's leftmost-first preference order.  `…TemplateMatch` states the
decomposition literally; `…MatchExists` is an executable search,
proved equivalent.  The alternation is abstracted as a language
`L : String → Bool` (the semantics of the alternation's branches, which
are anchored inside the capture group). -/

/-- A run of `\pZ` separator characters. -/
def AllZ (z : List Char) : Prop := ∀ c ∈ z, isPZ c = true

/-- All decompositions `cs = a ++ b`. -/
def splits : List Char → List (List Char × List Char)
  | [] => [([], [])]
  | c :: cs => ([], c :: cs) :: (splits cs).map fun pr => (c :: pr.1, pr.2)

/-- Executable semantics of the trailing `\)?\pZ*$` of the end templates. -/
def closeMatch (u : List Char) : Bool :=
  (optDrops ')' u).any fun v => v.all isPZ

/-- Executable semantics of `\pZ*\(?(ALT)\)?\pZ*$`, the part of the end
templates after the required separator. -/
def endTailMatch (L : String → Bool) (cs : List Char) : Bool :=
  (dropsWhile isPZ cs).any fun r1 =>
    (optDrops '(' r1).any fun r2 =>
      (splits r2).any fun pr => L (String.mk pr.1) && closeMatch pr.2

/-- Scanner for the separator position of the end templates: `b` records
whether at least one short-name character precedes the current
position. -/
def endScan (L : String → Bool) : Bool → List Char → Bool
  | _, [] => false
  | b, c :: cs => (b && isZP c && endTailMatch L cs) || endScan L true cs

/-- The regex `(?i)^\pZ*(.+?)\pZ*[\pZ\pP]\pZ*\(?(ALT)\)?\pZ*$` of
`reEnd`/`reEndFallback` matches `s` for some decomposition. -/
def endMatchExists (L : String → Bool) (s : String) : Bool :=
  endScan L false s.toList

/-- Full declarative reading of the `End`/`EndFallback` template. -/
def EndTemplateMatch (L : String → Bool) (cs : List Char) : Prop :=
  ∃ z1 pre z2 sep z3 lp d rp z4,
    cs = z1 ++ pre ++ z2 ++ sep :: (z3 ++ lp ++ d ++ rp ++ z4) ∧
    AllZ z1 ∧ pre ≠ [] ∧ AllZ z2 ∧ isZP sep = true ∧ AllZ z3 ∧
    (lp = [] ∨ lp = ['(']) ∧ L (String.mk d) = true ∧
    (rp = [] ∨ rp = [')']) ∧ AllZ z4

/-- The regex `(?i)^\pZ*(.+?)\pZ*\(?(ALT)\)?\pZ*$` of `reEndCont` matches
`s` for some decomposition. -/
def endContMatchExists (L : String → Bool) (s : String) : Bool :=
  (splits s.toList).any fun pr =>
    !pr.1.isEmpty &&
      ((optDrops '(' pr.2).any fun r2 =>
        (splits r2).any fun qr => L (String.mk qr.1) && closeMatch qr.2)

/-- Full declarative reading of the `EndCont` template. -/
def EndContTemplateMatch (L : String → Bool) (cs : List Char) : Prop :=
  ∃ z1 pre z2 lp d rp z4,
    cs = z1 ++ pre ++ z2 ++ lp ++ d ++ rp ++ z4 ∧
    AllZ z1 ∧ pre ≠ [] ∧ AllZ z2 ∧ (lp = [] ∨ lp = ['(']) ∧
    L (String.mk d) = true ∧ (rp = [] ∨ rp = [')']) ∧ AllZ z4

/-- The regex `(?i)^\pZ*\(?(ALT)\)?[\pZ\pP]\pZ*(.+?)\pZ*$` of
`reBegin`/`reBeginFallback` matches `s` for some decomposition. -/
def beginMatchExists (L : String → Bool) (s : String) : Bool :=
  (dropsWhile isPZ s.toList).any fun r1 =>
    (optDrops '(' r1).any fun r2 =>
      (splits r2).any fun pr =>
        L (String.mk pr.1) &&
          ((optDrops ')' pr.2).any fun u =>
            match u with
            | [] => false
            | sep :: tail => isZP sep && !tail.isEmpty)

/-- Full declarative reading of the `Begin`/`BeginFallback` template. -/
def BeginTemplateMatch (L : String → Bool) (cs : List Char) : Prop :=
  ∃ z1 lp d rp sep z3 pre z4,
    cs = z1 ++ lp ++ d ++ rp ++ sep :: (z3 ++ pre ++ z4) ∧
    AllZ z1 ∧ (lp = [] ∨ lp = ['(']) ∧ L (String.mk d) = true ∧
    (rp = [] ∨ rp = [')']) ∧ isZP sep = true ∧ AllZ z3 ∧ pre ≠ [] ∧ AllZ z4

/-! ### A spec-modelled dataset and the corresponding model parser

The bundled `company_designator.yml` dataset is not part of the
repository sources, so a small dataset is modelled from the spec: the
`"LLC"`/`"L.L.C."` abbreviations (spec §8 scenario 1), the
`"Vennootschap"`/`"Vennootschap Onder Firma"` and `"Co."`/`"& Co."`
overlapping pairs of the blacklist discussion (§4.2.1, §8), a leading
(`lead`) Russian form and a continuous-script (`ja`) form (§4.2, §4.3),
so that each of the five tiers has a nonempty alternation. -/

/-- Modelled from the spec: a representative slice of the external
company-designator dataset. -/
def modelDataset : dataset :=
  [(r"Limited Liability Company",
    { Abbr := [r"L.L.C.", r"LLC"], Lang := "en" }),
   (r"Vennootschap Onder Firma", { Abbr := [r"V.O.F."], Lang := "nl" }),
   (r"Vennootschap", { Lang := "nl", Lead := true }),
   (r"Общество с ограниченной ответственностью",
    { Abbr := [r"ООО"], Lang := "ru", Lead := true }),
   (r"株式会社", { Lang := "ja" }),
   (r"Company", { Abbr := [r"& Co.", r"Co.", r"Co. L.L.C."], Lang := "en" })]

/-- The alternation language of tier `t` compiled from dataset `ds`: a
string is accepted when some branch — the escaped form of some tier
source string (`compileREPatternsList_eq`) — matches it.  All
`modelDataset` strings are NFD-invariant and free of combining marks, so
under `idEnv` the branch semantics of `escapeDes src` is `desMatches
src` and no stripped variants arise. -/
def tierLang (ds : dataset) (t : PositionType) : String → Bool :=
  fun d => (tierSources ds t).any fun src => desMatches src d

/-- Model of a compiled end-template regex (`reEnd`/`reEndFallback`):
match existence follows the declarative template semantics; the capture
groups, whose selection among multiple admissible decompositions is an
engine-preference detail, are not modelled and are returned empty.  The
concrete statements below consume only match existence (`Matched`,
`Position`). -/
def matcherOfEnd (L : String → Bool) : String → Option (String × String) :=
  fun s => if endMatchExists L s then some (r"", r"") else none

/-- Model of a compiled `reEndCont` regex (match existence only). -/
def matcherOfEndCont (L : String → Bool) : String → Option (String × String) :=
  fun s => if endContMatchExists L s then some (r"", r"") else none

/-- Model of a compiled begin-template regex (match existence only). -/
def matcherOfBegin (L : String → Bool) : String → Option (String × String) :=
  fun s => if beginMatchExists L s then some (r"", r"") else none

/-- The parser `New` builds over `modelDataset`: each tier's matcher is
the template semantics over that tier's compiled alternation. -/
def modelParser : Parser :=
  ⟨matcherOfEnd (tierLang modelDataset PositionType.End),
   matcherOfEnd (tierLang modelDataset PositionType.EndFallback),
   matcherOfEndCont (tierLang modelDataset PositionType.EndCont),
   matcherOfBegin (tierLang modelDataset PositionType.Begin),
   matcherOfBegin (tierLang modelDataset PositionType.BeginFallback)⟩

/-- Concrete strings used by the scenario statements below. -/
def strLLC : String := "LLC"

def strCo : String := "Co."

def strAmpCo : String := "& Co."

def inpLLC : String := "LLC"

def inpSpLLC : String := " LLC"

def inpLLCSp : String := "LLC "

def inpSpLLCSp : String := " LLC "

def inpSpSpLLC : String := "  LLC"

def inpFooAmpCo : String := "Foo & Co."

def inpKK : String := "株式会社"

def inpSpKK : String := " 株式会社"

/-- The alternation language accepting everything (for instantiating
statements that hold for every alternation). -/
def trueLang : String → Bool := fun _ => true

/-! ### The V2 engine (src/unnamed/part_003, lines 227–605)

The later variant of the same engine: `escapeDes` additionally rewrites
ampersands, `compileREPatterns` guards the empty alternation and wraps
the branches in `\(?(?:…)\)?`, `New` leaves a tier's regex nil when its
pattern is empty, `StrEndBefore` captures the separator character, and
`Parse` routes it through `checkDesPunct`. -/

/-- The character map replacing every ampersand by a plus sign (the
variant spelling the `\s*[&+]\s*` fragment is designed to accept). -/
def amp2plus (c : Char) : Char := if c = '&' then '+' else c

/-- An opening parenthesis, as a one-character string (the comparison
`punct != "("` of `checkDesPunct`). -/
def strLParen : String := "("

/-- A designator with an embedded ampersand (spec §4.2 example). -/
def strAGCo : String := "AG & Co"

/-- A short-name capture used in concrete V2 scenarios. -/
def strFoo : String := "Foo"

/-- An input whose designator is introduced by an opening parenthesis. -/
def inpFooParenLLC : String := "Foo (LLC)"

namespace V2


/-- Scanner state for the V2 `escapeDes` tokenizer: `plain` (a pending
separator run becomes a `sp2` token), `afterDot` (a pending run was
absorbed by the preceding period's `PeriodSpace` match), `afterAmp` (a
pending run was absorbed by the preceding ampersand's trailing `\pZ*`). -/
inductive ScanSt where
  | plain
  | afterDot
  | afterAmp
deriving DecidableEq, Repr

/-- The token a pending separator run flushes to when the next character
is not an ampersand: only a run in plain context becomes a `Space`
(`sp2`) fragment. -/
def flushZ : ScanSt → Bool → List Tok
  | ScanSt.plain, true => [Tok.sp2]
  | _, _ => []

/-- Tokenizer realising the V2 `escapeDes` (composition of its four
`ReplaceAllString` passes, in source order `Ampersand`, `Paren`,
`PeriodSpace`, `Space`).  The `Ampersand` pass `\pZ*&\pZ*` runs first, so
a separator run followed by `&` always belongs to the ampersand fragment;
a period absorbs its trailing separator run (`PeriodSpace` `\.\pZ*`)
unless the ampersand pass already claimed it; leftover runs become
`Space` fragments.  None of the passes can affect a fragment inserted by
an earlier pass (the inserted texts contain no `\pZ` character, no period
and no parenthesis), so the composition is this single scan. -/
def tokV2 : ScanSt → Bool → List Char → List Tok
  | st, pendingZ, [] => flushZ st pendingZ
  | st, pendingZ, c :: cs =>
    if isPZ c then tokV2 st true cs
    else if c = '&' then Tok.amp :: tokV2 ScanSt.afterAmp false cs
    else if c = '.' then
      flushZ st pendingZ ++ Tok.dot2 :: tokV2 ScanSt.afterDot false cs
    else if isParen c then
      flushZ st pendingZ ++ Tok.esc c :: tokV2 ScanSt.plain false cs
    else flushZ st pendingZ ++ Tok.lit c :: tokV2 ScanSt.plain false cs

/-- The fragment sequence of the V2 `escapeDes` for a designator. -/
def tokenizeV2 (l : List Char) : List Tok := tokV2 ScanSt.plain false l

/-- `escapeDes` from the V2 source: the escaped regex text, the
concatenation of the fragment texts. -/
def escapeDes (des : String) : String :=
  String.mk ((tokenizeV2 des.toList).flatMap fun t => (fragText t).toList)

/-- Matching semantics of the V2 `escapeDes des` as one `(?i)`
alternation branch. -/
def desMatches (des s : String) : Bool :=
  toksMatch (tokenizeV2 des.toList) s.toList

/-- The ampersand replacement text of the V2 `escapeDes`. -/
def ampFrag : String := r"\s*[&+]\s*"

/-! ### The V2 pattern compiler and parser -/

/-- `addPattern` of the V2 source (identical control flow to the V1
version; only the escaping differs). -/
def addPattern (env : Env) (patterns : List String) (s : String)
    (t : PositionType) : List String :=
  if (t = PositionType.End ∨ t = PositionType.Begin) ∧
      EndDesignatorBlacklist s then patterns
  else if (t = PositionType.EndFallback ∨ t = PositionType.BeginFallback) ∧
      ¬EndDesignatorBlacklist s then patterns
  else
    let s1 := escapeDes (env.nfd s)
    let patterns1 := patterns ++ [s1]
    let s2 := env.stripMarks s1
    if s2 ≠ s1 then patterns1 ++ [s2] else patterns1

/-- The abbreviation loop of the V2 `compileREPatterns`. -/
def addAbbrs (env : Env) (t : PositionType) :
    List String → List String → List String
  | [], patterns => patterns
  | a :: rest, patterns =>
      addAbbrs env t rest
        (if t = PositionType.EndCont ∧ isASCII a then patterns
         else addPattern env patterns a t)

/-- The per-entry body of the V2 `compileREPatterns` loop. -/
def compileEntry (env : Env) (t : PositionType) (long : String) (e : entry)
    (patterns : List String) : List String :=
  if (t = PositionType.Begin ∨ t = PositionType.BeginFallback) ∧ ¬e.Lead then
    patterns
  else if t = PositionType.EndCont ∧ ¬LangContinua e.Lang then patterns
  else addAbbrs env t e.Abbr (addPattern env patterns long t)

/-- The dataset loop of the V2 `compileREPatterns`. -/
def compileREPatternsAux (env : Env) (t : PositionType) :
    dataset → List String → List String
  | [], patterns => patterns
  | kv :: rest, patterns =>
      compileREPatternsAux env t rest (compileEntry env t kv.1 kv.2 patterns)

/-- The alternation branches the V2 `compileREPatterns` collects. -/
def compileREPatternsList (env : Env) (ds : dataset) (t : PositionType) :
    List String :=
  compileREPatternsAux env t ds []

/-- `compileREPatterns` of the V2 source: empty when no pattern
qualified, otherwise the branches joined with `|` and wrapped in
`\(?(?:…)\)?` to always allow outer parentheses. -/
def compileREPatterns (env : Env) (ds : dataset) (t : PositionType) : String :=
  if compileREPatternsList env ds t = [] then ""
  else
    r"\(?(?:" ++ String.intercalate "|" (compileREPatternsList env ds t) ++
      r")\)?"

/-- The V2 tier-template constants (the end templates capture the
separator character as group 2). -/
def StrBeginBefore : String := r"^\pZ*"

def StrBeginAfter : String := r"[\pZ\pP]\pZ*(.+?)\pZ*$"

def StrEndBefore : String := r"^\pZ*(.+?)\pZ*([\pZ\pP])\pZ*"

def StrEndAfter : String := r"\pZ*$"

def StrEndContBefore : String := r"^\pZ*(.+?)\pZ*"

def StrEndContAfter : String := r"\pZ*$"

/-- The V2 Parser: a tier's field is `none` when `New` left the regex
nil; an end-template matcher returns the three capture groups (short
name, separator, designator), the other matchers the two groups of the
V1 shapes. -/
structure Parser where
  reEnd : Option (String → Option (String × String × String))
  reEndFallback : Option (String → Option (String × String × String))
  reEndCont : Option (String → Option (String × String))
  reBegin : Option (String → Option (String × String))
  reBeginFallback : Option (String → Option (String × String))

/-- `New` of the V2 source: compile the five tier patterns and keep a
compiled regex only for nonempty patterns.  Regex compilation itself is
the external `regexp.MustCompile`, abstracted as the `compile3`/
`compile2` oracles mapping a regex string to its submatch function. -/
def New (env : Env)
    (compile3 : String → (String → Option (String × String × String)))
    (compile2 : String → (String → Option (String × String)))
    (ds : dataset) : Parser :=
  { reEnd :=
      if compileREPatterns env ds PositionType.End = "" then none
      else some (compile3 ((r"(?i)" ++ StrEndBefore ++ r"(") ++
        compileREPatterns env ds PositionType.End ++ (r")" ++ StrEndAfter))),
    reEndFallback :=
      if compileREPatterns env ds PositionType.EndFallback = "" then none
      else some (compile3 ((r"(?i)" ++ StrEndBefore ++ r"(") ++
        compileREPatterns env ds PositionType.EndFallback ++
        (r")" ++ StrEndAfter))),
    reEndCont :=
      if compileREPatterns env ds PositionType.EndCont = "" then none
      else some (compile2 ((r"(?i)" ++ StrEndContBefore ++ r"(") ++
        compileREPatterns env ds PositionType.EndCont ++
        (r")" ++ StrEndContAfter))),
    reBegin :=
      if compileREPatterns env ds PositionType.Begin = "" then none
      else some (compile2 ((r"(?i)" ++ StrBeginBefore ++ r"(") ++
        compileREPatterns env ds PositionType.Begin ++
        (r")" ++ StrBeginAfter))),
    reBeginFallback :=
      if compileREPatterns env ds PositionType.BeginFallback = "" then none
      else some (compile2 ((r"(?i)" ++ StrBeginBefore ++ r"(") ++
        compileREPatterns env ds PositionType.BeginFallback ++
        (r")" ++ StrBeginAfter))) }

/-- `checkDesPunct` of the V2 source: an opening parenthesis captured as
the separator belongs to the designator and is prepended; any other
separator leaves the designator unchanged. -/
def checkDesPunct (punct des : String) : String :=
  if punct ≠ strLParen then des else punct ++ des

/-- The `End`-tier block of the V2 `Parse` (`if p.reEnd != nil { … }`). -/
def tryEnd (env : Env) (p : Parser) (inputNFC s : String) : Option Result :=
  match p.reEnd with
  | none => none
  | some f =>
    match f s with
    | none => none
    | some m =>
        some { Input := inputNFC, Matched := true, ShortName := env.nfc m.1,
               Designator := env.nfc (checkDesPunct m.2.1 m.2.2),
               Position := PositionType.End }

/-- The `EndFallback`-tier block of the V2 `Parse` (reported as `End`). -/
def tryEndFallback (env : Env) (p : Parser) (inputNFC s : String) :
    Option Result :=
  match p.reEndFallback with
  | none => none
  | some f =>
    match f s with
    | none => none
    | some m =>
        some { Input := inputNFC, Matched := true, ShortName := env.nfc m.1,
               Designator := env.nfc (checkDesPunct m.2.1 m.2.2),
               Position := PositionType.End }

/-- The `EndCont`-tier block of the V2 `Parse` (reported as `End`). -/
def tryEndCont (env : Env) (p : Parser) (inputNFC s : String) :
    Option Result :=
  match p.reEndCont with
  | none => none
  | some f =>
    match f s with
    | none => none
    | some m =>
        some { Input := inputNFC, Matched := true, ShortName := env.nfc m.1,
               Designator := env.nfc m.2, Position := PositionType.End }

/-- The `Begin`-tier block of the V2 `Parse`. -/
def tryBegin (env : Env) (p : Parser) (inputNFC s : String) : Option Result :=
  match p.reBegin with
  | none => none
  | some f =>
    match f s with
    | none => none
    | some m =>
        some { Input := inputNFC, Matched := true, ShortName := env.nfc m.2,
               Designator := env.nfc m.1, Position := PositionType.Begin }

/-- The `BeginFallback`-tier block of the V2 `Parse` (reported as
`Begin`). -/
def tryBeginFallback (env : Env) (p : Parser) (inputNFC s : String) :
    Option Result :=
  match p.reBeginFallback with
  | none => none
  | some f =>
    match f s with
    | none => none
    | some m =>
        some { Input := inputNFC, Matched := true, ShortName := env.nfc m.2,
               Designator := env.nfc m.1, Position := PositionType.Begin }

/-- `Parser.Parse` of the V2 source: same preprocessing and tier order as
V1, but each tier is guarded by its nil check and the end tiers route the
captured separator and designator through `checkDesPunct`. -/
def Parse (env : Env) (p : Parser) (input : String) : Result :=
  match tryEnd env p (env.nfc input) (preInput env input) with
  | some r => r
  | none =>
    match tryEndFallback env p (env.nfc input) (preInput env input) with
    | some r => r
    | none =>
      match tryEndCont env p (env.nfc input)
          (replaceParenSpace (preInput env input)) with
      | some r => r
      | none =>
        match tryBegin env p (env.nfc input) (preInput env input) with
        | some r => r
        | none =>
          match tryBeginFallback env p (env.nfc input) (preInput env input) with
          | some r => r
          | none => noMatchResult (env.nfc input)

/-- A parser whose `End` tier matches with the separator captured as an
opening parenthesis (concrete instantiation for C7). -/
def parenParser : Parser :=
  { reEnd := some (fun _ => some (strFoo, strLParen, strLLC)),
    reEndFallback := none, reEndCont := none, reBegin := none,
    reBeginFallback := none }

/-- A dataset with no leading-form entry and no continuous-script entry
(so the `Begin`, `BeginFallback` and `EndCont` tiers have no qualifying
entry). -/
def leadFreeDataset : dataset :=
  [(r"Limited Liability Company", { Abbr := [r"LLC"], Lang := "en" })]

/-- A compile oracle for three-group regexes whose matcher never
matches. -/
def nullCompile3 : String → String → Option (String × String × String) :=
  fun _ _ => none

/-- A compile oracle for two-group regexes whose matcher never matches. -/
def nullCompile2 : String → String → Option (String × String) :=
  fun _ _ => none

end V2

/-! ### Properties -/

theorem addPattern_eq (env : Env) (patterns : List String) (s : String)
    (t : PositionType) :
    addPattern env patterns s t =
      patterns ++ (if stringAccepted t s then patVariants env s else []) := by
  by_cases h1 : (t = PositionType.End ∨ t = PositionType.Begin) ∧
      EndDesignatorBlacklist s
  · rw [addPattern, if_pos h1, stringAccepted, if_pos h1]
    simp
  · by_cases h2 : (t = PositionType.EndFallback ∨ t = PositionType.BeginFallback) ∧
        ¬EndDesignatorBlacklist s
    · rw [addPattern, if_neg h1, if_pos h2, stringAccepted, if_neg h1, if_pos h2]
      simp
    · have hacc : stringAccepted t s = true := by
        rw [stringAccepted, if_neg h1, if_neg h2]
      rw [addPattern, if_neg h1, if_neg h2, hacc, if_pos rfl, patVariants]
      by_cases h3 : env.stripMarks (escapeDes (env.nfd s)) ≠ escapeDes (env.nfd s)
      · rw [if_pos h3, if_pos h3]
        simp
      · rw [if_neg h3, if_neg h3]

theorem addAbbrs_eq (env : Env) (t : PositionType) (abbrs : List String)
    (patterns : List String) :
    addAbbrs env t abbrs patterns =
      patterns ++ (abbrs.filter fun a => abbrKeep t a).flatMap (patVariants env) := by
  induction abbrs generalizing patterns with
  | nil => simp [addAbbrs]
  | cons a rest ih =>
    by_cases h : t = PositionType.EndCont ∧ isASCII a
    · have hk : abbrKeep t a = false := by rw [abbrKeep, if_pos h]
      simp only [addAbbrs, if_pos h, ih, List.filter_cons, hk]
      simp
    · have hk : abbrKeep t a = stringAccepted t a := by rw [abbrKeep, if_neg h]
      simp only [addAbbrs, if_neg h, ih, addPattern_eq, List.filter_cons, hk]
      by_cases h2 : stringAccepted t a
      · simp [h2]
      · simp [h2]

theorem compileEntry_eq (env : Env) (t : PositionType) (long : String)
    (e : entry) (patterns : List String) :
    compileEntry env t long e patterns =
      patterns ++
        (if entryQualifies t e then
          (if stringAccepted t long then [long] else []) ++
            e.Abbr.filter (fun a => abbrKeep t a)
         else []).flatMap (patVariants env) := by
  by_cases h1 : (t = PositionType.Begin ∨ t = PositionType.BeginFallback) ∧ ¬e.Lead
  · rw [compileEntry, if_pos h1, entryQualifies, if_pos h1]
    simp
  · by_cases h2 : t = PositionType.EndCont ∧ ¬LangContinua e.Lang
    · rw [compileEntry, if_neg h1, if_pos h2, entryQualifies, if_neg h1, if_pos h2]
      simp
    · have hq : entryQualifies t e = true := by
        rw [entryQualifies, if_neg h1, if_neg h2]
      rw [compileEntry, if_neg h1, if_neg h2, hq, if_pos rfl, addAbbrs_eq,
        addPattern_eq]
      by_cases h3 : stringAccepted t long
      · simp [h3]
      · simp [h3]

theorem compileREPatternsAux_eq (env : Env) (t : PositionType) (ds : dataset)
    (patterns : List String) :
    compileREPatternsAux env t ds patterns =
      patterns ++ (tierSources ds t).flatMap (patVariants env) := by
  induction ds generalizing patterns with
  | nil => simp [compileREPatternsAux, tierSources]
  | cons kv rest ih =>
    unfold compileREPatternsAux
    rw [ih, compileEntry_eq]
    simp [tierSources]

/-- The compiled pattern list is exactly the escaped variants of the tier's
source strings, in dataset order. -/
theorem compileREPatternsList_eq (env : Env) (ds : dataset) (t : PositionType) :
    compileREPatternsList env ds t =
      (tierSources ds t).flatMap (patVariants env) := by
  unfold compileREPatternsList
  rw [compileREPatternsAux_eq]
  simp

theorem stringAccepted_end_begin {t : PositionType} {s : String}
    (ht : t = PositionType.End ∨ t = PositionType.Begin)
    (h : stringAccepted t s = true) : EndDesignatorBlacklist s = false := by
  unfold stringAccepted at h
  by_cases hb : EndDesignatorBlacklist s
  · simp [ht, hb] at h
  · simpa using hb

theorem stringAccepted_fallback {t : PositionType} {s : String}
    (ht : t = PositionType.EndFallback ∨ t = PositionType.BeginFallback)
    (h : stringAccepted t s = true) : EndDesignatorBlacklist s = true := by
  unfold stringAccepted at h
  by_cases hb : EndDesignatorBlacklist s
  · exact hb
  · rcases ht with ht | ht <;> simp [ht, hb] at h

/-- Every tier source string passed the blacklist rules for its tier. -/
theorem mem_tierSources_accepted {ds : dataset} {t : PositionType} {s : String}
    (h : s ∈ tierSources ds t) : stringAccepted t s = true := by
  unfold tierSources at h
  rcases List.mem_flatMap.mp h with ⟨kv, _, hmem⟩
  by_cases hq : entryQualifies t kv.2
  · simp only [hq, if_true] at hmem
    rcases List.mem_append.mp hmem with hl | hr
    · by_cases ha : stringAccepted t kv.1
      · simp only [ha, if_true, List.mem_singleton] at hl
        subst hl; exact ha
      · simp [ha] at hl
    · have := (List.mem_filter.mp hr).2
      unfold abbrKeep at this
      by_cases hc : t = PositionType.EndCont ∧ isASCII s
      · simp [hc] at this
      · simpa [hc] using this
  · simp [hq] at hmem

/-- Every compiled pattern of a tier is an escaped variant of one of the
tier's source strings. -/
theorem mem_compileREPatternsList {env : Env} {ds : dataset}
    {t : PositionType} {p : String}
    (h : p ∈ compileREPatternsList env ds t) :
    ∃ s, s ∈ tierSources ds t ∧
      (p = escapeDes (env.nfd s) ∨
       p = env.stripMarks (escapeDes (env.nfd s))) := by
  rw [compileREPatternsList_eq] at h
  rcases List.mem_flatMap.mp h with ⟨s, hs, hp⟩
  refine ⟨s, hs, ?_⟩
  rw [patVariants] at hp
  by_cases hm : env.stripMarks (escapeDes (env.nfd s)) ≠ escapeDes (env.nfd s)
  · rw [if_pos hm] at hp
    rcases List.mem_pair.mp hp with hp | hp
    · exact Or.inl hp
    · exact Or.inr hp
  · rw [if_neg hm] at hp
    exact Or.inl (List.mem_singleton.mp hp)

/-- Conversely, every tier source string contributes its escaped form to
the compiled pattern list. -/
theorem escape_mem_compileREPatternsList {env : Env} {ds : dataset}
    {t : PositionType} {s : String} (h : s ∈ tierSources ds t) :
    escapeDes (env.nfd s) ∈ compileREPatternsList env ds t := by
  rw [compileREPatternsList_eq]
  refine List.mem_flatMap.mpr ⟨s, h, ?_⟩
  rw [patVariants]
  by_cases hm : env.stripMarks (escapeDes (env.nfd s)) ≠ escapeDes (env.nfd s)
  · rw [if_pos hm]; exact List.mem_cons_self _ _
  · rw [if_neg hm]; exact List.mem_singleton.mpr rfl

/-- C1.  `Parse` is total and error-free — its Go error component is nil
at every return statement — and when none of the five tier patterns
matches the (preprocessed, decomposed) input, the returned `Result` has
`Matched = false`, `Position = None`, empty `Designator`, and `ShortName`
equal to its `Input` field, the canonically composed form of the original
input. -/
theorem parse_total_and_no_match_result (env : Env) (p : Parser)
    (input : String) :
    ParseGo env p input = Except.ok (Parse env p input) ∧
    (p.reEnd (preInput env input) = none →
     p.reEndFallback (preInput env input) = none →
     p.reEndCont (replaceParenSpace (preInput env input)) = none →
     p.reBegin (preInput env input) = none →
     p.reBeginFallback (preInput env input) = none →
     Parse env p input = noMatchResult (env.nfc input) ∧
     (Parse env p input).ShortName = (Parse env p input).Input) := by
  refine ⟨rfl, fun h1 h2 h3 h4 h5 => ?_⟩
  have hres : Parse env p input = noMatchResult (env.nfc input) := by
    unfold Parse noMatchResult
    rw [h1, h2, h3, h4, h5]
  exact ⟨hres, by rw [hres]; rfl⟩

/-- Witness for C1 at a concrete point: the never-matching parser on the
input `"Profound Networks"` in the identity environment. -/
theorem parse_total_and_no_match_result_witness :
    Parse idEnv nullParser inpProfound = noMatchResult inpProfound :=
  ((parse_total_and_no_match_result idEnv nullParser inpProfound).2
    rfl rfl rfl rfl rfl).1

/-- C2.  The five tier patterns are tried in the fixed order `End`,
`EndFallback`, `EndCont` (against the parenthesis-stripped input),
`Begin`, `BeginFallback`; the first tier to match determines the result,
and once a tier has matched no later tier is consulted: the result is
unchanged under arbitrary replacement of every later tier. -/
theorem parse_tier_order (env : Env) (p : Parser) (input : String) :
    (∀ g, p.reEnd (preInput env input) = some g →
       Parse env p input = endResult env (env.nfc input) g ∧
       ∀ q : Parser, q.reEnd = p.reEnd →
         Parse env q input = Parse env p input) ∧
    (p.reEnd (preInput env input) = none →
     ∀ g, p.reEndFallback (preInput env input) = some g →
       Parse env p input = endResult env (env.nfc input) g ∧
       ∀ q : Parser, q.reEnd = p.reEnd → q.reEndFallback = p.reEndFallback →
         Parse env q input = Parse env p input) ∧
    (p.reEnd (preInput env input) = none →
     p.reEndFallback (preInput env input) = none →
     ∀ g, p.reEndCont (replaceParenSpace (preInput env input)) = some g →
       Parse env p input = endResult env (env.nfc input) g ∧
       ∀ q : Parser, q.reEnd = p.reEnd → q.reEndFallback = p.reEndFallback →
         q.reEndCont = p.reEndCont → Parse env q input = Parse env p input) ∧
    (p.reEnd (preInput env input) = none →
     p.reEndFallback (preInput env input) = none →
     p.reEndCont (replaceParenSpace (preInput env input)) = none →
     ∀ g, p.reBegin (preInput env input) = some g →
       Parse env p input = beginResult env (env.nfc input) g ∧
       ∀ q : Parser, q.reEnd = p.reEnd → q.reEndFallback = p.reEndFallback →
         q.reEndCont = p.reEndCont → q.reBegin = p.reBegin →
         Parse env q input = Parse env p input) ∧
    (p.reEnd (preInput env input) = none →
     p.reEndFallback (preInput env input) = none →
     p.reEndCont (replaceParenSpace (preInput env input)) = none →
     p.reBegin (preInput env input) = none →
     ∀ g, p.reBeginFallback (preInput env input) = some g →
       Parse env p input = beginResult env (env.nfc input) g) := by
  refine ⟨?_, ?_, ?_, ?_, ?_⟩
  · intro g hg
    constructor
    · unfold Parse; rw [hg]
    · intro q hq
      unfold Parse
      rw [hq, hg]
  · intro h1 g hg
    constructor
    · unfold Parse; rw [h1, hg]
    · intro q hq1 hq2
      unfold Parse
      rw [hq1, hq2, h1, hg]
  · intro h1 h2 g hg
    constructor
    · unfold Parse; rw [h1, h2, hg]
    · intro q hq1 hq2 hq3
      unfold Parse
      rw [hq1, hq2, hq3, h1, h2, hg]
  · intro h1 h2 h3 g hg
    constructor
    · unfold Parse; rw [h1, h2, h3, hg]
    · intro q hq1 hq2 hq3 hq4
      unfold Parse
      rw [hq1, hq2, hq3, hq4, h1, h2, h3, hg]
  · intro h1 h2 h3 h4 g hg
    unfold Parse
    rw [h1, h2, h3, h4, hg]

/-- Witness for C2 at a concrete point: a parser whose `End` tier matches
`"Profound Networks LLC"` with groups `("Profound Networks", "LLC")`
produces the `End` result, and changing all later tiers (here: to the
never-matching ones of `nullParser`) cannot change the outcome. -/
theorem parse_tier_order_witness :
    Parse idEnv (endOnlyParser gProfoundLLC) inpProfoundLLC =
      endResult idEnv inpProfoundLLC gProfoundLLC :=
  ((parse_tier_order idEnv (endOnlyParser gProfoundLLC)
      inpProfoundLLC).1 gProfoundLLC rfl).1

/-- C3.  Every `Result` returned by `Parse` has `Position` equal to
`None`, `End` or `Begin`; a first match in the `EndFallback` or `EndCont`
tier is reported as `End`, and a first match in the `BeginFallback` tier
is reported as `Begin` — the tier values `EndFallback`, `EndCont`,
`BeginFallback` never appear in a returned `Result`. -/
theorem parse_position_range (env : Env) (p : Parser) (input : String) :
    ((Parse env p input).Position = PositionType.None ∨
     (Parse env p input).Position = PositionType.End ∨
     (Parse env p input).Position = PositionType.Begin) ∧
    (p.reEnd (preInput env input) = none →
     (∀ g, p.reEndFallback (preInput env input) = some g →
        (Parse env p input).Position = PositionType.End) ∧
     (p.reEndFallback (preInput env input) = none →
      (∀ g, p.reEndCont (replaceParenSpace (preInput env input)) = some g →
         (Parse env p input).Position = PositionType.End) ∧
      (p.reEndCont (replaceParenSpace (preInput env input)) = none →
       p.reBegin (preInput env input) = none →
       ∀ g, p.reBeginFallback (preInput env input) = some g →
         (Parse env p input).Position = PositionType.Begin))) := by
  constructor
  · unfold Parse
    rcases h1 : p.reEnd (preInput env input) with _ | g1
    · rcases h2 : p.reEndFallback (preInput env input) with _ | g2
      · rcases h3 : p.reEndCont (replaceParenSpace (preInput env input)) with _ | g3
        · rcases h4 : p.reBegin (preInput env input) with _ | g4
          · rcases h5 : p.reBeginFallback (preInput env input) with _ | g5
            · exact Or.inl rfl
            · exact Or.inr (Or.inr rfl)
          · exact Or.inr (Or.inr rfl)
        · exact Or.inr (Or.inl rfl)
      · exact Or.inr (Or.inl rfl)
    · exact Or.inr (Or.inl rfl)
  · intro h1
    constructor
    · intro g hg
      unfold Parse
      rw [h1, hg]
      rfl
    · intro h2
      constructor
      · intro g hg
        unfold Parse
        rw [h1, h2, hg]
        rfl
      · intro h3 h4 g hg
        unfold Parse
        rw [h1, h2, h3, h4, hg]
        rfl

theorem parse_position_range_witness :
    (Parse idEnv (endFallbackOnlyParser gFooCo) inpFooCo).Position =
      PositionType.End :=
  ((parse_position_range idEnv (endFallbackOnlyParser gFooCo)
      inpFooCo).2 rfl).1 gFooCo rfl

/-- C9.  `Parse` is normalization-insensitive: under the standard
normalization identities (NFD and NFC are idempotent, NFD ∘ NFC = NFD,
NFC ∘ NFD = NFC, NFC of the empty string is empty — all true of real
Unicode canonical normalization), parsing the composed form of an input
and parsing its decomposed form give equal `Result`s, and the `ShortName`
and `Designator` fields of every result are canonically composed. -/
theorem parse_normalization (env : Env) (p : Parser) (input : String)
    (hdd : ∀ s, env.nfd (env.nfd s) = env.nfd s)
    (hdc : ∀ s, env.nfd (env.nfc s) = env.nfd s)
    (hcc : ∀ s, env.nfc (env.nfc s) = env.nfc s)
    (hcd : ∀ s, env.nfc (env.nfd s) = env.nfc s)
    (hce : env.nfc "" = "") :
    Parse env p (env.nfc input) = Parse env p (env.nfd input) ∧
    (Parse env p input).ShortName = env.nfc ((Parse env p input).ShortName) ∧
    (Parse env p input).Designator =
      env.nfc ((Parse env p input).Designator) := by
  refine ⟨?_, ?_⟩
  · unfold Parse preInput
    rw [hdc, hdd, hcc, hcd]
  · unfold Parse
    rcases p.reEnd (preInput env input) with _ | g1
    · rcases p.reEndFallback (preInput env input) with _ | g2
      · rcases p.reEndCont (replaceParenSpace (preInput env input)) with _ | g3
        · rcases p.reBegin (preInput env input) with _ | g4
          · rcases p.reBeginFallback (preInput env input) with _ | g5
            · exact ⟨(hcc input).symm, hce.symm⟩
            · exact ⟨(hcc g5.2).symm, (hcc g5.1).symm⟩
          · exact ⟨(hcc g4.2).symm, (hcc g4.1).symm⟩
        · exact ⟨(hcc g3.1).symm, (hcc g3.2).symm⟩
      · exact ⟨(hcc g2.1).symm, (hcc g2.2).symm⟩
    · exact ⟨(hcc g1.1).symm, (hcc g1.2).symm⟩

theorem andEq {a b : Bool} : (a && b) = true ↔ a = true ∧ b = true := by simp

theorem mem_splits {cs : List Char} {a b : List Char} :
    (a, b) ∈ splits cs ↔ cs = a ++ b := by
  induction cs generalizing a with
  | nil =>
    simp only [splits, List.mem_singleton, Prod.mk.injEq]
    constructor
    · rintro ⟨rfl, rfl⟩; rfl
    · intro h
      rcases List.append_eq_nil.mp h.symm with ⟨rfl, rfl⟩
      exact ⟨rfl, rfl⟩
  | cons c cs ih =>
    simp only [splits, List.mem_cons, List.mem_map, Prod.mk.injEq]
    constructor
    · rintro (⟨rfl, rfl⟩ | ⟨pr, hpr, rfl, rfl⟩)
      · rfl
      · simp [ih.mp hpr]
    · intro h
      cases a with
      | nil => exact Or.inl ⟨rfl, h.symm ▸ rfl⟩
      | cons c' a' =>
        simp only [List.cons_append, List.cons.injEq] at h
        exact Or.inr ⟨(a', b), ih.mpr h.2, by rw [h.1], rfl⟩

theorem mem_dropsWhile {p : Char → Bool} {cs r : List Char} :
    r ∈ dropsWhile p cs ↔ ∃ z, (∀ c ∈ z, p c = true) ∧ cs = z ++ r := by
  induction cs with
  | nil =>
    simp only [dropsWhile, List.mem_singleton]
    constructor
    · rintro rfl; exact ⟨[], by simp, rfl⟩
    · rintro ⟨z, _, hz⟩
      rcases List.append_eq_nil.mp hz.symm with ⟨rfl, rfl⟩; rfl
  | cons c cs ih =>
    simp only [dropsWhile, List.mem_cons]
    constructor
    · rintro (rfl | hr)
      · exact ⟨[], by simp, rfl⟩
      · by_cases hp : p c
        · rw [if_pos hp] at hr
          rcases ih.mp hr with ⟨z, hz, rfl⟩
          exact ⟨c :: z, by simpa [hp], rfl⟩
        · rw [if_neg hp] at hr
          cases hr
    · rintro ⟨z, hz, heq⟩
      cases z with
      | nil => exact Or.inl (by simpa using heq.symm)
      | cons c' z' =>
        simp only [List.cons_append, List.cons.injEq] at heq
        have hpc : p c = true := heq.1 ▸ hz c' (List.mem_cons_self _ _)
        refine Or.inr ?_
        rw [if_pos hpc]
        exact ih.mpr ⟨z', fun x hx => hz x (List.mem_cons_of_mem _ hx), heq.2⟩

theorem mem_optDrops {c : Char} {cs r : List Char} :
    r ∈ optDrops c cs ↔ cs = r ∨ cs = c :: r := by
  cases cs with
  | nil =>
    simp only [optDrops, List.mem_singleton]
    constructor
    · rintro rfl; exact Or.inl rfl
    · rintro (rfl | h)
      · rfl
      · cases h
  | cons x xs =>
    simp only [optDrops, List.mem_cons]
    constructor
    · rintro (rfl | hr)
      · exact Or.inl rfl
      · by_cases hx : x = c
        · rw [if_pos hx] at hr
          subst hx
          exact Or.inr (by rw [List.mem_singleton.mp hr])
        · rw [if_neg hx] at hr
          cases hr
    · rintro (rfl | heq)
      · exact Or.inl rfl
      · refine Or.inr ?_
        obtain ⟨rfl, rfl⟩ := List.cons.injEq .. ▸ heq
        simp

theorem closeMatch_iff {u : List Char} :
    closeMatch u = true ↔
      ∃ rp z4, u = rp ++ z4 ∧ (rp = [] ∨ rp = [')']) ∧ AllZ z4 := by
  unfold closeMatch
  rw [List.any_eq_true]
  constructor
  · rintro ⟨v, hv, hall⟩
    rcases mem_optDrops.mp hv with h | h
    · exact ⟨[], v, by simp [h], Or.inl rfl,
        fun c hc => List.all_eq_true.mp hall c hc⟩
    · exact ⟨[')'], v, by simp [h], Or.inr rfl,
        fun c hc => List.all_eq_true.mp hall c hc⟩
  · rintro ⟨rp, z4, rfl, hrp | hrp, hz4⟩
    · subst hrp
      exact ⟨z4, mem_optDrops.mpr (Or.inl (by simp)),
        List.all_eq_true.mpr fun c hc => hz4 c hc⟩
    · subst hrp
      exact ⟨z4, mem_optDrops.mpr (Or.inr (by simp)),
        List.all_eq_true.mpr fun c hc => hz4 c hc⟩

theorem endTailMatch_iff {L : String → Bool} {cs : List Char} :
    endTailMatch L cs = true ↔
      ∃ z3 lp d rp z4, cs = z3 ++ lp ++ d ++ rp ++ z4 ∧ AllZ z3 ∧
        (lp = [] ∨ lp = ['(']) ∧ L (String.mk d) = true ∧
        (rp = [] ∨ rp = [')']) ∧ AllZ z4 := by
  unfold endTailMatch
  rw [List.any_eq_true]
  constructor
  · rintro ⟨r1, hr1, h1⟩
    rcases List.any_eq_true.mp h1 with ⟨r2, hr2, h2⟩
    rcases List.any_eq_true.mp h2 with ⟨pr, hpr, h3⟩
    rcases andEq.mp h3 with ⟨hL, hclose⟩
    rcases mem_dropsWhile.mp hr1 with ⟨z3, hz3, rfl⟩
    rcases closeMatch_iff.mp hclose with ⟨rp, z4, hu, hrp, hz4⟩
    rcases mem_optDrops.mp hr2 with rfl | rfl
    · refine ⟨z3, [], pr.1, rp, z4, ?_, hz3, Or.inl rfl, hL, hrp, hz4⟩
      have := mem_splits.mp hpr
      simp [this, hu]
    · refine ⟨z3, ['('], pr.1, rp, z4, ?_, hz3, Or.inr rfl, hL, hrp, hz4⟩
      have := mem_splits.mp hpr
      simp [this, hu]
  · rintro ⟨z3, lp, d, rp, z4, rfl, hz3, hlp, hL, hrp, hz4⟩
    refine ⟨lp ++ d ++ rp ++ z4,
      mem_dropsWhile.mpr ⟨z3, hz3, by simp⟩, ?_⟩
    rw [List.any_eq_true]
    refine ⟨d ++ rp ++ z4, ?_, ?_⟩
    · rcases hlp with rfl | rfl
      · exact mem_optDrops.mpr (Or.inl (by simp))
      · exact mem_optDrops.mpr (Or.inr (by simp))
    · rw [List.any_eq_true]
      refine ⟨(d, rp ++ z4), mem_splits.mpr (by simp), ?_⟩
      rw [Bool.and_eq_true]
      exact ⟨hL, closeMatch_iff.mpr ⟨rp, z4, rfl, hrp, hz4⟩⟩

theorem endScan_iff {L : String → Bool} {cs : List Char} {b : Bool} :
    endScan L b cs = true ↔
      ∃ pre sep rest, cs = pre ++ sep :: rest ∧ (b = true ∨ pre ≠ []) ∧
        isZP sep = true ∧ endTailMatch L rest = true := by
  induction cs generalizing b with
  | nil =>
    simp only [endScan]
    constructor
    · intro h; cases h
    · rintro ⟨pre, sep, rest, heq, -, -, -⟩
      cases pre <;> simp at heq
  | cons c cs ih =>
    simp only [endScan, Bool.or_eq_true, Bool.and_eq_true]
    constructor
    · rintro (⟨⟨hb, hc⟩, htail⟩ | h)
      · exact ⟨[], c, cs, rfl, Or.inl hb, hc, htail⟩
      · rcases ih.mp h with ⟨pre, sep, rest, rfl, -, hsep, htail⟩
        exact ⟨c :: pre, sep, rest, rfl, Or.inr (by simp), hsep, htail⟩
    · rintro ⟨pre, sep, rest, heq, hb, hsep, htail⟩
      cases pre with
      | nil =>
        simp only [List.nil_append, List.cons.injEq] at heq
        rcases hb with hb | hb
        · exact Or.inl ⟨⟨hb, heq.1 ▸ hsep⟩, heq.2 ▸ htail⟩
        · exact absurd rfl hb
      | cons c' pre' =>
        simp only [List.cons_append, List.cons.injEq] at heq
        refine Or.inr (ih.mpr ⟨pre', sep, rest, heq.2, Or.inl rfl, hsep, htail⟩)

/-- The executable end-template search is equivalent to the declarative
template reading. -/
theorem endMatchExists_iff {L : String → Bool} {s : String} :
    endMatchExists L s = true ↔ EndTemplateMatch L s.toList := by
  unfold endMatchExists EndTemplateMatch
  generalize s.toList = cs
  rw [endScan_iff]
  constructor
  · rintro ⟨pre, sep, rest, heq, hb, hsep, htail⟩
    rcases hb with hb | hb
    · cases hb
    · rcases endTailMatch_iff.mp htail with ⟨z3, lp, d, rp, z4, rfl, h3, hlp, hL, hrp, h4⟩
      exact ⟨[], pre, [], sep, z3, lp, d, rp, z4, by simpa using heq, by simp [AllZ],
        hb, by simp [AllZ], hsep, h3, hlp, hL, hrp, h4⟩
  · rintro ⟨z1, pre, z2, sep, z3, lp, d, rp, z4, heq, h1, hpre, h2, hsep, h3, hlp, hL, hrp, h4⟩
    refine ⟨z1 ++ pre ++ z2, sep, z3 ++ lp ++ d ++ rp ++ z4, by simp [heq], ?_,
      hsep, endTailMatch_iff.mpr ⟨z3, lp, d, rp, z4, rfl, h3, hlp, hL, hrp, h4⟩⟩
    refine Or.inr ?_
    intro hnil
    rcases List.append_eq_nil.mp hnil with ⟨hnil1, -⟩
    rcases List.append_eq_nil.mp hnil1 with ⟨-, hnil2⟩
    exact hpre hnil2

theorem endContMatchExists_iff {L : String → Bool} {s : String} :
    endContMatchExists L s = true ↔ EndContTemplateMatch L s.toList := by
  unfold endContMatchExists EndContTemplateMatch
  generalize s.toList = cs
  rw [List.any_eq_true]
  constructor
  · rintro ⟨pr, hpr, h⟩
    rcases andEq.mp h with ⟨hne, h2⟩
    rcases List.any_eq_true.mp h2 with ⟨r2, hr2, h3⟩
    rcases List.any_eq_true.mp h3 with ⟨qr, hqr, h4⟩
    rcases andEq.mp h4 with ⟨hL, hclose⟩
    rcases closeMatch_iff.mp hclose with ⟨rp, z4, hu, hrp, hz4⟩
    have hsp := mem_splits.mp hpr
    have hq := mem_splits.mp hqr
    have hpre : pr.1 ≠ [] := by
      intro h; rw [h] at hne; simp at hne
    rcases mem_optDrops.mp hr2 with h2eq | h2eq
    · exact ⟨[], pr.1, [], [], qr.1, rp, z4,
        by simp [hsp, h2eq, hq, hu], by simp [AllZ], hpre, by simp [AllZ],
        Or.inl rfl, hL, hrp, hz4⟩
    · exact ⟨[], pr.1, [], ['('], qr.1, rp, z4,
        by simp [hsp, h2eq, hq, hu], by simp [AllZ], hpre, by simp [AllZ],
        Or.inr rfl, hL, hrp, hz4⟩
  · rintro ⟨z1, pre, z2, lp, d, rp, z4, heq, h1, hpre, h2, hlp, hL, hrp, h4⟩
    refine ⟨(z1 ++ pre ++ z2, lp ++ d ++ rp ++ z4), mem_splits.mpr (by simp [heq]), ?_⟩
    rw [Bool.and_eq_true]
    constructor
    · simp only [Bool.not_eq_true']
      rw [← Bool.not_eq_true]
      intro hempty
      rw [List.isEmpty_iff] at hempty
      rcases List.append_eq_nil.mp hempty with ⟨hnil1, -⟩
      rcases List.append_eq_nil.mp hnil1 with ⟨-, hnil2⟩
      exact hpre hnil2
    · rw [List.any_eq_true]
      refine ⟨d ++ rp ++ z4, ?_, ?_⟩
      · rcases hlp with rfl | rfl
        · exact mem_optDrops.mpr (Or.inl (by simp))
        · exact mem_optDrops.mpr (Or.inr (by simp))
      · rw [List.any_eq_true]
        exact ⟨(d, rp ++ z4), mem_splits.mpr (by simp), andEq.mpr
          ⟨hL, closeMatch_iff.mpr ⟨rp, z4, rfl, hrp, h4⟩⟩⟩

theorem beginMatchExists_iff {L : String → Bool} {s : String} :
    beginMatchExists L s = true ↔ BeginTemplateMatch L s.toList := by
  unfold beginMatchExists BeginTemplateMatch
  generalize s.toList = cs
  rw [List.any_eq_true]
  constructor
  · rintro ⟨r1, hr1, h1⟩
    rcases List.any_eq_true.mp h1 with ⟨r2, hr2, h2⟩
    rcases List.any_eq_true.mp h2 with ⟨pr, hpr, h3⟩
    rcases andEq.mp h3 with ⟨hL, h4⟩
    rcases List.any_eq_true.mp h4 with ⟨u, hu, h5⟩
    rcases mem_dropsWhile.mp hr1 with ⟨z1, hz1, rfl⟩
    have hsp := mem_splits.mp hpr
    cases u with
    | nil => cases h5
    | cons sep tail =>
      rcases andEq.mp h5 with ⟨hsep, hne⟩
      have htail : tail ≠ [] := by
        intro h; rw [h] at hne; simp at hne
      have hrp := mem_optDrops.mp hu
      rcases mem_optDrops.mp hr2 with h2eq | h2eq
      · rcases hrp with hrpe | hrpe
        · exact ⟨z1, [], pr.1, [], sep, [], tail, [],
            by simp [h2eq, hsp, hrpe], hz1, Or.inl rfl, hL, Or.inl rfl, hsep,
            by simp [AllZ], htail, by simp [AllZ]⟩
        · exact ⟨z1, [], pr.1, [')'], sep, [], tail, [],
            by simp [h2eq, hsp, hrpe], hz1, Or.inl rfl, hL, Or.inr rfl, hsep,
            by simp [AllZ], htail, by simp [AllZ]⟩
      · rcases hrp with hrpe | hrpe
        · exact ⟨z1, ['('], pr.1, [], sep, [], tail, [],
            by simp [h2eq, hsp, hrpe], hz1, Or.inr rfl, hL, Or.inl rfl, hsep,
            by simp [AllZ], htail, by simp [AllZ]⟩
        · exact ⟨z1, ['('], pr.1, [')'], sep, [], tail, [],
            by simp [h2eq, hsp, hrpe], hz1, Or.inr rfl, hL, Or.inr rfl, hsep,
            by simp [AllZ], htail, by simp [AllZ]⟩
  · rintro ⟨z1, lp, d, rp, sep, z3, pre, z4, heq, h1, hlp, hL, hrp, hsep, h3, hpre, h4⟩
    refine ⟨lp ++ d ++ rp ++ sep :: (z3 ++ pre ++ z4),
      mem_dropsWhile.mpr ⟨z1, h1, by simp [heq]⟩, ?_⟩
    rw [List.any_eq_true]
    refine ⟨d ++ rp ++ sep :: (z3 ++ pre ++ z4), ?_, ?_⟩
    · rcases hlp with rfl | rfl
      · exact mem_optDrops.mpr (Or.inl (by simp))
      · exact mem_optDrops.mpr (Or.inr (by simp))
    · rw [List.any_eq_true]
      refine ⟨(d, rp ++ sep :: (z3 ++ pre ++ z4)), mem_splits.mpr (by simp), ?_⟩
      rw [Bool.and_eq_true]
      refine ⟨hL, List.any_eq_true.mpr ⟨sep :: (z3 ++ pre ++ z4), ?_, ?_⟩⟩
      · rcases hrp with rfl | rfl
        · exact mem_optDrops.mpr (Or.inl (by simp))
        · exact mem_optDrops.mpr (Or.inr (by simp))
      · rw [Bool.and_eq_true]
        refine ⟨hsep, ?_⟩
        simp only [Bool.not_eq_true']
        rw [← Bool.not_eq_true]
        intro hempty
        rw [List.isEmpty_iff] at hempty
        rcases List.append_eq_nil.mp hempty with ⟨hnil1, -⟩
        rcases List.append_eq_nil.mp hnil1 with ⟨-, hnil2⟩
        exact hpre hnil2

/-- C10 counterexample.  `"  LLC"` consists solely of the designator
`"LLC"` (an `End`-tier source of the dataset) with surrounding spaces,
yet `Parse` returns `Matched = true`: the `End` template can use the
first space as the captured short-name character and the second space as
the required separator, so the claim's conclusion fails although every
tier does require a nonempty short-name capture. -/
theorem bare_designator_counterexample :
    inpSpSpLLC = String.mk [' ', ' ', 'L', 'L', 'C'] ∧
    strLLC ∈ tierSources modelDataset PositionType.End ∧
    EndTemplateMatch (tierLang modelDataset PositionType.End)
      inpSpSpLLC.toList ∧
    (Parse idEnv modelParser inpSpSpLLC).Matched = true ∧
    (Parse idEnv modelParser inpSpSpLLC).Position = PositionType.End := by
  refine ⟨rfl, by decide, endMatchExists_iff.mp (by decide), by decide,
    by decide⟩

/-- C10 amended.  Every tier pattern requires at least one captured
short-name character in addition to the designator, and the four
separator tiers (`End`, `EndFallback`, `Begin`, `BeginFallback`)
additionally require a `[\pZ\pP]` separator character, so an input
containing no separator character at all matches none of those four
tiers; over the modelled dataset, `Parse` returns the unmatched result
on the bare designators `"LLC"`, `" LLC"`, `"LLC "`, `" LLC "` and
`"株式会社"`.  The claim's universal conclusion is false: the
separator-free `EndCont` tier matches the bare continuous-script
designator with a single leading space (`" 株式会社"`, the space being
captured as the short name), and with two or more leading spaces even
the `End` tier matches (see the counterexample). -/
theorem bare_designator_no_match :
    (∀ (L : String → Bool) (s : String), (∀ c ∈ s.toList, isZP c = false) →
      endMatchExists L s = false ∧ beginMatchExists L s = false) ∧
    (∀ (L : String → Bool) (s : String), endMatchExists L s = true →
      ∃ pre sep rest, s.toList = pre ++ sep :: rest ∧ pre ≠ [] ∧
        isZP sep = true) ∧
    (∀ (L : String → Bool) (s : String), endContMatchExists L s = true →
      ∃ z1 pre rest, s.toList = z1 ++ pre ++ rest ∧ pre ≠ []) ∧
    (∀ (L : String → Bool) (s : String), beginMatchExists L s = true →
      ∃ front sep tl, s.toList = front ++ sep :: tl ∧
        isZP sep = true ∧ tl ≠ []) ∧
    Parse idEnv modelParser inpLLC = noMatchResult inpLLC ∧
    Parse idEnv modelParser inpSpLLC = noMatchResult inpSpLLC ∧
    Parse idEnv modelParser inpLLCSp = noMatchResult inpLLCSp ∧
    Parse idEnv modelParser inpSpLLCSp = noMatchResult inpSpLLCSp ∧
    Parse idEnv modelParser inpKK = noMatchResult inpKK ∧
    (Parse idEnv modelParser inpSpKK).Matched = true ∧
    (Parse idEnv modelParser inpSpKK).Position = PositionType.End := by
  refine ⟨?_, ?_, ?_, ?_, by decide, by decide, by decide, by decide,
    by decide, by decide, by decide⟩
  · intro L s h
    constructor
    · cases hval : endMatchExists L s with
      | false => rfl
      | true =>
        exfalso
        rcases endMatchExists_iff.mp hval with
          ⟨z1, pre, z2, sep, z3, lp, d, rp, z4, heq, -, -, -, hsep, -, -,
            -, -, -⟩
        have hmem : sep ∈ s.toList := by
          rw [heq]
          exact List.mem_append.mpr (Or.inr (List.mem_cons_self _ _))
        rw [h sep hmem] at hsep
        simp at hsep
    · cases hval : beginMatchExists L s with
      | false => rfl
      | true =>
        exfalso
        rcases beginMatchExists_iff.mp hval with
          ⟨z1, lp, d, rp, sep, z3, pre, z4, heq, -, -, -, -, hsep, -, -, -⟩
        have hmem : sep ∈ s.toList := by
          rw [heq]
          exact List.mem_append.mpr (Or.inr (List.mem_cons_self _ _))
        rw [h sep hmem] at hsep
        simp at hsep
  · intro L s hval
    have hval' : endScan L false s.toList = true := hval
    rcases endScan_iff.mp hval' with ⟨pre, sep, rest, heq, hb, hsep, -⟩
    rcases hb with hb | hb
    · cases hb
    · exact ⟨pre, sep, rest, heq, hb, hsep⟩
  · intro L s hval
    rcases endContMatchExists_iff.mp hval with
      ⟨z1, pre, z2, lp, d, rp, z4, heq, -, hpre, -, -, -, -, -⟩
    refine ⟨z1, pre, z2 ++ lp ++ d ++ rp ++ z4, ?_, hpre⟩
    rw [heq]
    simp [List.append_assoc]
  · intro L s hval
    rcases beginMatchExists_iff.mp hval with
      ⟨z1, lp, d, rp, sep, z3, pre, z4, heq, -, -, -, -, hsep, -, hpre, -⟩
    refine ⟨z1 ++ lp ++ d ++ rp, sep, z3 ++ pre ++ z4, heq, hsep, ?_⟩
    intro htl
    rcases List.append_eq_nil.mp htl with ⟨h1, -⟩
    rcases List.append_eq_nil.mp h1 with ⟨-, h2⟩
    exact hpre h2

/-- Closed instance of the amended C10 theorem: `"LLC"` contains no
separator character, so neither separator-tier template can match it,
whatever the alternation language. -/
theorem bare_designator_no_match_witness :
    endMatchExists trueLang inpLLC = false ∧
    beginMatchExists trueLang inpLLC = false :=
  bare_designator_no_match.1 trueLang inpLLC (by decide)

/-- C4.  Blacklist-overlap resolution: (a) when the primary `End` pattern
matches, its result is returned and no fallback tier is ever consulted —
the fallback can only fire when the primary matches nowhere; (b)
`addPattern` contributes nothing to the `End` tier for a blacklisted
string; (c) the non-blacklisted longer designator `"& Co."` always
contributes its escaped branch to the `End` alternation when present in
the dataset; (d) concretely, over the modelled dataset the `End`
alternation accepts `"& Co."` and rejects the blacklisted `"Co."` (which
only the fallback alternation accepts), the `End` template matches
`"Foo & Co."`, `Parse` reports it at `Position = End`, and no string
accepted by the `End` alternation equals `"Co."` — so the designator
matched by the primary tier is never the bare blacklisted `"Co."`. -/
theorem blacklist_superset_wins (env : Env) (p : Parser) (input : String)
    (g : String × String) :
    (p.reEnd (preInput env input) = some g →
       Parse env p input = endResult env (env.nfc input) g ∧
       ∀ q : Parser, q.reEnd = p.reEnd →
         Parse env q input = Parse env p input) ∧
    (∀ patterns s, EndDesignatorBlacklist s = true →
       addPattern env patterns s PositionType.End = patterns) ∧
    (∀ ds : dataset, strAmpCo ∈ tierSources ds PositionType.End →
       escapeDes (env.nfd strAmpCo) ∈
         compileREPatternsList env ds PositionType.End) ∧
    (strAmpCo ∈ tierSources modelDataset PositionType.End ∧
     strCo ∉ tierSources modelDataset PositionType.End ∧
     tierLang modelDataset PositionType.End strAmpCo = true ∧
     tierLang modelDataset PositionType.End strCo = false ∧
     tierLang modelDataset PositionType.EndFallback strCo = true ∧
     endMatchExists (tierLang modelDataset PositionType.End) inpFooAmpCo =
       true ∧
     (Parse idEnv modelParser inpFooAmpCo).Position = PositionType.End ∧
     ∀ d, tierLang modelDataset PositionType.End d = true → d ≠ strCo) := by
  refine ⟨?_, ?_, ?_, by decide, by decide, by decide, by decide, by decide,
    by decide, by decide, ?_⟩
  · intro hg
    constructor
    · unfold Parse; rw [hg]
    · intro q hq
      unfold Parse
      rw [hq, hg]
  · intro patterns s h
    rw [addPattern, if_pos ⟨Or.inl rfl, h⟩]
  · intro ds h
    exact escape_mem_compileREPatternsList h
  · intro d h hd
    rw [hd] at h
    exact absurd h (by decide)

/-- Witness for C4 at a concrete point: the model parser's primary `End`
tier matches `"Foo & Co."`, so `Parse` returns the `End` result and the
fallback tier is never consulted. -/
theorem blacklist_superset_wins_witness :
    Parse idEnv modelParser inpFooAmpCo =
      endResult idEnv inpFooAmpCo (r"", r"") :=
  ((blacklist_superset_wins idEnv modelParser inpFooAmpCo (r"", r"")).1
    (by decide)).1

/-- C5.  Blacklist routing of the pattern compiler: `addPattern` drops a
blacklisted string for the `End`/`Begin` tiers and drops a
non-blacklisted string for the `EndFallback`/`BeginFallback` tiers;
consequently every branch of a compiled `End`/`Begin` alternation is an
escaped variant of a non-blacklisted dataset string, and every branch of
a compiled `EndFallback`/`BeginFallback` alternation is an escaped
variant of a blacklisted dataset string. -/
theorem blacklist_tier_membership (env : Env) (ds : dataset)
    (t : PositionType) :
    (∀ patterns s, EndDesignatorBlacklist s = true →
       addPattern env patterns s PositionType.End = patterns ∧
       addPattern env patterns s PositionType.Begin = patterns) ∧
    (∀ patterns s, EndDesignatorBlacklist s = false →
       addPattern env patterns s PositionType.EndFallback = patterns ∧
       addPattern env patterns s PositionType.BeginFallback = patterns) ∧
    ((t = PositionType.End ∨ t = PositionType.Begin) →
     ∀ p ∈ compileREPatternsList env ds t,
       ∃ s, s ∈ tierSources ds t ∧ EndDesignatorBlacklist s = false ∧
         (p = escapeDes (env.nfd s) ∨
          p = env.stripMarks (escapeDes (env.nfd s)))) ∧
    ((t = PositionType.EndFallback ∨ t = PositionType.BeginFallback) →
     ∀ p ∈ compileREPatternsList env ds t,
       ∃ s, s ∈ tierSources ds t ∧ EndDesignatorBlacklist s = true ∧
         (p = escapeDes (env.nfd s) ∨
          p = env.stripMarks (escapeDes (env.nfd s)))) := by
  refine ⟨?_, ?_, ?_, ?_⟩
  · intro patterns s h
    constructor
    · rw [addPattern, if_pos ⟨Or.inl rfl, h⟩]
    · rw [addPattern, if_pos ⟨Or.inr rfl, h⟩]
  · intro patterns s h
    constructor
    · rw [addPattern, if_neg (by simp [h]), if_pos ⟨Or.inl rfl, by simp [h]⟩]
    · rw [addPattern, if_neg (by simp [h]), if_pos ⟨Or.inr rfl, by simp [h]⟩]
  · intro ht p hp
    rcases mem_compileREPatternsList hp with ⟨s, hs, hvar⟩
    exact ⟨s, hs,
      stringAccepted_end_begin ht (mem_tierSources_accepted hs), hvar⟩
  · intro ht p hp
    rcases mem_compileREPatternsList hp with ⟨s, hs, hvar⟩
    exact ⟨s, hs,
      stringAccepted_fallback ht (mem_tierSources_accepted hs), hvar⟩

/-- Witness for C5 at a concrete point: the blacklisted `"Co."`
contributes nothing to an `End`- or `Begin`-tier pattern list, and the
non-blacklisted `"LLC"` contributes nothing to a fallback list. -/
theorem blacklist_tier_membership_witness :
    (addPattern idEnv [] strCo PositionType.End = [] ∧
     addPattern idEnv [] strCo PositionType.Begin = []) ∧
    (addPattern idEnv [] strLLC PositionType.EndFallback = [] ∧
     addPattern idEnv [] strLLC PositionType.BeginFallback = []) :=
  ⟨(blacklist_tier_membership idEnv [] PositionType.End).1 [] strCo
     (by decide),
   (blacklist_tier_membership idEnv [] PositionType.End).2.1 [] strLLC
     (by decide)⟩

theorem amp2plus_pres {p : Char → Bool} (hamp : p '&' = p '+') :
    ∀ c, p (amp2plus c) = p c := by
  intro c
  unfold amp2plus
  by_cases h : c = '&'
  · subst h
    rw [if_pos rfl]
    exact hamp.symm
  · rw [if_neg h]

theorem mem_dropsWhile_map {p : Char → Bool} {f : Char → Char}
    (hp : ∀ c, p (f c) = p c) {cs r : List Char}
    (h : r ∈ dropsWhile p cs) : r.map f ∈ dropsWhile p (cs.map f) := by
  induction cs with
  | nil =>
    simp only [dropsWhile, List.mem_singleton] at h
    subst h
    simp [dropsWhile]
  | cons c cs ih =>
    simp only [dropsWhile, List.mem_cons, List.map_cons] at h ⊢
    rcases h with rfl | h
    · exact Or.inl rfl
    · by_cases hpc : p c
      · rw [if_pos hpc] at h
        rw [if_pos (by rw [hp]; exact hpc)]
        exact Or.inr (ih h)
      · rw [if_neg hpc] at h
        cases h

theorem mem_optDrops_map {c0 : Char} {f : Char → Char} (hc : f c0 = c0)
    {cs r : List Char} (h : r ∈ optDrops c0 cs) :
    r.map f ∈ optDrops c0 (cs.map f) := by
  rcases mem_optDrops.mp h with rfl | rfl
  · exact mem_optDrops.mpr (Or.inl rfl)
  · exact mem_optDrops.mpr (Or.inr (by simp [hc]))

theorem mem_plusDrops_map {p : Char → Bool} {f : Char → Char}
    (hp : ∀ c, p (f c) = p c) {cs r : List Char}
    (h : r ∈ plusDrops p cs) : r.map f ∈ plusDrops p (cs.map f) := by
  cases cs with
  | nil => cases h
  | cons c cs =>
    simp only [plusDrops, List.map_cons] at h ⊢
    by_cases hpc : p c
    · rw [if_pos hpc] at h
      rw [if_pos (by rw [hp]; exact hpc)]
      exact mem_dropsWhile_map hp h
    · rw [if_neg hpc] at h
      cases h

/-- Replacing `&` by `+` in the input preserves membership in a
fragment's remainder set, provided the fragment is not the literal or
escape of a character folding to `&`. -/
theorem tokDrops_map {t : Tok} {s r : List Char}
    (hlit : ∀ c, t = Tok.lit c → foldChar c ≠ '&')
    (hesc : ∀ c, t = Tok.esc c → c ≠ '&')
    (h : r ∈ tokDrops t s) : r.map amp2plus ∈ tokDrops t (s.map amp2plus) := by
  cases t with
  | lit c =>
    cases s with
    | nil => cases h
    | cons x xs =>
      simp only [tokDrops, List.map_cons] at h ⊢
      by_cases hx : foldChar x = foldChar c
      · rw [if_pos hx] at h
        have hxamp : x ≠ '&' := by
          intro hxe
          subst hxe
          exact hlit c rfl (hx ▸ rfl)
        rw [if_pos (by rw [show amp2plus x = x from if_neg hxamp]; exact hx)]
        rw [List.mem_singleton] at h
        rw [h]
        exact List.mem_singleton.mpr rfl
      · rw [if_neg hx] at h
        cases h
  | esc c =>
    cases s with
    | nil => cases h
    | cons x xs =>
      simp only [tokDrops, List.map_cons] at h ⊢
      by_cases hx : x = c
      · rw [if_pos hx] at h
        have hcamp : c ≠ '&' := hesc c rfl
        rw [if_pos (by rw [hx, show amp2plus c = c from if_neg hcamp])]
        rw [List.mem_singleton] at h
        rw [h]
        exact List.mem_singleton.mpr rfl
      · rw [if_neg hx] at h
        cases h
  | dot1 =>
    simp only [tokDrops] at h ⊢
    rcases List.mem_flatMap.mp h with ⟨ys, hys, hr⟩
    rcases List.mem_flatMap.mp hr with ⟨zs, hzs, hr2⟩
    refine List.mem_flatMap.mpr ⟨ys.map amp2plus,
      mem_dropsWhile_map (amp2plus_pres (by decide)) hys,
      List.mem_flatMap.mpr ⟨zs.map amp2plus,
        mem_optDrops_map (by decide) hzs,
        mem_dropsWhile_map (amp2plus_pres (by decide)) hr2⟩⟩
  | sp1 =>
    simp only [tokDrops] at h ⊢
    rcases List.mem_flatMap.mp h with ⟨ys, hys, hr⟩
    exact List.mem_flatMap.mpr ⟨ys.map amp2plus,
      mem_optDrops_map (by decide) hys,
      mem_plusDrops_map (amp2plus_pres (by decide)) hr⟩
  | dot2 =>
    simp only [tokDrops] at h ⊢
    rcases List.mem_flatMap.mp h with ⟨ys, hys, hr⟩
    exact List.mem_flatMap.mpr ⟨ys.map amp2plus,
      mem_dropsWhile_map (amp2plus_pres (by decide)) hys,
      mem_dropsWhile_map (amp2plus_pres (by decide)) hr⟩
  | sp2 =>
    simp only [tokDrops] at h ⊢
    exact mem_plusDrops_map (amp2plus_pres (by decide)) h
  | amp =>
    simp only [tokDrops] at h ⊢
    rcases List.mem_flatMap.mp h with ⟨ys, hys, hr⟩
    refine List.mem_flatMap.mpr ⟨ys.map amp2plus,
      mem_dropsWhile_map (amp2plus_pres (by decide)) hys, ?_⟩
    cases ys with
    | nil => cases hr
    | cons y ys' =>
      simp only [List.map_cons]
      have hr2 : r ∈
          if (decide (y = '&') || decide (y = '+')) = true then
            dropsWhile isWS ys'
          else [] := hr
      by_cases hcnd : (decide (y = '&') || decide (y = '+')) = true
      · rw [if_pos hcnd] at hr2
        have hy : y = '&' ∨ y = '+' := by simpa using hcnd
        have hcnd2 :
            (decide (amp2plus y = '&') || decide (amp2plus y = '+')) = true := by
          rcases hy with rfl | rfl <;> decide
        rw [if_pos hcnd2]
        exact mem_dropsWhile_map (amp2plus_pres (by decide)) hr2
      · rw [if_neg hcnd] at hr2
        cases hr2

/-- Replacing `&` by `+` in the input preserves a full fragment-sequence
match, provided no fragment is the literal/escape of a character folding
to `&`. -/
theorem toksMatch_map {toks : List Tok} {s : List Char}
    (hlit : ∀ c, Tok.lit c ∈ toks → foldChar c ≠ '&')
    (hesc : ∀ c, Tok.esc c ∈ toks → c ≠ '&')
    (h : toksMatch toks s = true) :
    toksMatch toks (s.map amp2plus) = true := by
  induction toks generalizing s with
  | nil =>
    simp only [toksMatch] at h ⊢
    rw [List.isEmpty_iff] at h ⊢
    rw [h]
    rfl
  | cons t ts ih =>
    simp only [toksMatch] at h ⊢
    rcases List.any_eq_true.mp h with ⟨r, hr, hmatch⟩
    exact List.any_eq_true.mpr ⟨r.map amp2plus,
      tokDrops_map (fun c hc => hlit c (hc ▸ List.mem_cons_self _ _))
        (fun c hc => hesc c (hc ▸ List.mem_cons_self _ _)) hr,
      ih (fun c hc => hlit c (List.mem_cons_of_mem _ hc))
        (fun c hc => hesc c (List.mem_cons_of_mem _ hc)) hmatch⟩

/-- Witness for C9 at a concrete point: the identity environment
satisfies all five normalization identities. -/
theorem parse_normalization_witness :
    Parse idEnv nullParser (idEnv.nfc inpAccent) =
      Parse idEnv nullParser (idEnv.nfd inpAccent) ∧
    (Parse idEnv nullParser inpAccent).ShortName =
      idEnv.nfc ((Parse idEnv nullParser inpAccent).ShortName) :=
  ⟨(parse_normalization idEnv nullParser inpAccent (fun _ => rfl)
      (fun _ => rfl) (fun _ => rfl) (fun _ => rfl) rfl).1,
   (parse_normalization idEnv nullParser inpAccent (fun _ => rfl)
      (fun _ => rfl) (fun _ => rfl) (fun _ => rfl) rfl).2.1⟩

theorem toNat_ofNat_lt {n : Nat} (h : n < 55296) : (Char.ofNat n).toNat = n := by
  simp [Char.ofNat, Char.toNat, Nat.isValidChar, h, Char.ofNatAux,
    UInt32.toNat, UInt32.ofNatCore]

/-- ASCII case folding can only produce `&` from `&` itself (an uppercase
letter folds into `a`–`z`, every other character is unchanged). -/
theorem foldChar_amp {c : Char} (h : foldChar c = '&') : c = '&' := by
  unfold foldChar at h
  by_cases hc : (0x41 ≤ c.toNat && c.toNat ≤ 0x5A) = true
  · rw [if_pos hc] at h
    have h1 : 0x41 ≤ c.toNat := of_decide_eq_true (andEq.mp hc).1
    have h2 : c.toNat ≤ 0x5A := of_decide_eq_true (andEq.mp hc).2
    have h3 := congrArg Char.toNat h
    rw [toNat_ofNat_lt (by omega)] at h3
    have h4 : ('&' : Char).toNat = 38 := rfl
    rw [h4] at h3
    omega
  · rw [if_neg hc] at h
    exact h

namespace V2

/-- Every ampersand of the designator produces an `amp` fragment. -/
theorem amp_mem_tokV2 {cs : List Char} (h : '&' ∈ cs) :
    ∀ st pendingZ, Tok.amp ∈ tokV2 st pendingZ cs := by
  induction cs with
  | nil => cases h
  | cons c cs ih =>
    intro st pendingZ
    rcases List.mem_cons.mp h with rfl | hmem
    · rw [tokV2, if_neg (by decide), if_pos rfl]
      exact List.mem_cons_self _ _
    · rw [tokV2]
      by_cases h1 : isPZ c
      · rw [if_pos h1]; exact ih hmem _ _
      · rw [if_neg h1]
        by_cases h2 : c = '&'
        · rw [if_pos h2]
          exact List.mem_cons_self _ _
        · rw [if_neg h2]
          by_cases h3 : c = '.'
          · rw [if_pos h3]
            exact List.mem_append_right _ (List.mem_cons_of_mem _ (ih hmem _ _))
          · rw [if_neg h3]
            by_cases h4 : isParen c
            · rw [if_pos h4]
              exact List.mem_append_right _
                (List.mem_cons_of_mem _ (ih hmem _ _))
            · rw [if_neg h4]
              exact List.mem_append_right _
                (List.mem_cons_of_mem _ (ih hmem _ _))

/-- A literal fragment never carries an ampersand (the tokenizer emits
`lit c` only after the `c = '&'` guard has failed, and `flushZ` emits no
literals). -/
theorem lit_tokV2 {c : Char} {cs : List Char} :
    ∀ st pendingZ, Tok.lit c ∈ tokV2 st pendingZ cs → c ≠ '&' := by
  induction cs with
  | nil =>
    intro st pendingZ h
    cases st <;> cases pendingZ <;> simp [tokV2, flushZ] at h
  | cons x xs ih =>
    intro st pendingZ h
    rw [tokV2] at h
    by_cases h1 : isPZ x
    · rw [if_pos h1] at h; exact ih _ _ h
    · rw [if_neg h1] at h
      by_cases h2 : x = '&'
      · rw [if_pos h2] at h
        rcases List.mem_cons.mp h with hx | hx
        · cases hx
        · exact ih _ _ hx
      · rw [if_neg h2] at h
        by_cases h3 : x = '.'
        · rw [if_pos h3] at h
          rcases List.mem_append.mp h with hx | hx
          · cases st <;> cases pendingZ <;> simp [flushZ] at hx
          · rcases List.mem_cons.mp hx with hx2 | hx2
            · cases hx2
            · exact ih _ _ hx2
        · rw [if_neg h3] at h
          by_cases h4 : isParen x
          · rw [if_pos h4] at h
            rcases List.mem_append.mp h with hx | hx
            · cases st <;> cases pendingZ <;> simp [flushZ] at hx
            · rcases List.mem_cons.mp hx with hx2 | hx2
              · cases hx2
              · exact ih _ _ hx2
          · rw [if_neg h4] at h
            rcases List.mem_append.mp h with hx | hx
            · cases st <;> cases pendingZ <;> simp [flushZ] at hx
            · rcases List.mem_cons.mp hx with hx2 | hx2
              · rw [show c = x from (Tok.lit.injEq ..).mp hx2]
                exact h2
              · exact ih _ _ hx2

/-- An escape fragment only ever carries a parenthesis character. -/
theorem esc_tokV2 {c : Char} {cs : List Char} :
    ∀ st pendingZ, Tok.esc c ∈ tokV2 st pendingZ cs → isParen c = true := by
  induction cs with
  | nil =>
    intro st pendingZ h
    cases st <;> cases pendingZ <;> simp [tokV2, flushZ] at h
  | cons x xs ih =>
    intro st pendingZ h
    rw [tokV2] at h
    by_cases h1 : isPZ x
    · rw [if_pos h1] at h; exact ih _ _ h
    · rw [if_neg h1] at h
      by_cases h2 : x = '&'
      · rw [if_pos h2] at h
        rcases List.mem_cons.mp h with hx | hx
        · cases hx
        · exact ih _ _ hx
      · rw [if_neg h2] at h
        by_cases h3 : x = '.'
        · rw [if_pos h3] at h
          rcases List.mem_append.mp h with hx | hx
          · cases st <;> cases pendingZ <;> simp [flushZ] at hx
          · rcases List.mem_cons.mp hx with hx2 | hx2
            · cases hx2
            · exact ih _ _ hx2
        · rw [if_neg h3] at h
          by_cases h4 : isParen x
          · rw [if_pos h4] at h
            rcases List.mem_append.mp h with hx | hx
            · cases st <;> cases pendingZ <;> simp [flushZ] at hx
            · rcases List.mem_cons.mp hx with hx2 | hx2
              · rw [show c = x from (Tok.esc.injEq ..).mp hx2]
                exact h4
              · exact ih _ _ hx2
          · rw [if_neg h4] at h
            rcases List.mem_append.mp h with hx | hx
            · cases st <;> cases pendingZ <;> simp [flushZ] at hx
            · rcases List.mem_cons.mp hx with hx2 | hx2
              · cases hx2
              · exact ih _ _ hx2

/-- A fragment's text is an infix of the concatenated fragment texts. -/
theorem fragText_infix {t : Tok} {toks : List Tok} (h : t ∈ toks) :
    List.IsInfix (fragText t).toList
      (toks.flatMap fun u => (fragText u).toList) := by
  induction toks with
  | nil => cases h
  | cons u us ih =>
    rcases List.mem_cons.mp h with rfl | hmem
    · exact ⟨[], us.flatMap fun v => (fragText v).toList, by simp⟩
    · rcases ih hmem with ⟨a, b, hab⟩
      refine ⟨(fragText u).toList ++ a, b, ?_⟩
      simp only [List.flatMap_cons]
      rw [← hab]
      simp [List.append_assoc]

/-- C6.  The V2 `escapeDes` rewrites every ampersand of a designator into
the fragment `\s*[&+]\s*` — literally present in the escaped pattern text
— whose semantics accepts `&` or `+` with optional surrounding
whitespace; consequently any input matching the compiled branch still
matches after every `&` is written as `+`. -/
theorem ampersand_escape (des : String) (s : List Char) :
    ('&' ∈ des.toList →
       Tok.amp ∈ tokenizeV2 des.toList ∧
       List.IsInfix ampFrag.toList (escapeDes des).toList) ∧
    (toksMatch (tokenizeV2 des.toList) s = true →
       toksMatch (tokenizeV2 des.toList) (s.map amp2plus) = true) ∧
    (fragText Tok.amp = ampFrag ∧
     toksMatch [Tok.amp] ['&'] = true ∧ toksMatch [Tok.amp] ['+'] = true ∧
     toksMatch [Tok.amp] [' ', '&', ' '] = true ∧
     toksMatch [Tok.amp] [' ', '+', ' '] = true) := by
  refine ⟨fun hamp => ⟨amp_mem_tokV2 hamp _ _, ?_⟩, fun hm => ?_,
    rfl, by decide, by decide, by decide, by decide⟩
  · exact fragText_infix (amp_mem_tokV2 hamp _ _)
  · refine toksMatch_map ?_ ?_ hm
    · intro c hc hfold
      exact lit_tokV2 _ _ hc (foldChar_amp hfold)
    · intro c hc hce
      subst hce
      exact absurd (esc_tokV2 _ _ hc) (by decide)

/-- Witness for C6 at a concrete point: the designator `"AG & Co"`
matches its own compiled branch, and (by the theorem) stays matched when
the ampersand is written as `+`. -/
theorem ampersand_escape_witness :
    toksMatch (tokenizeV2 strAGCo.toList)
      (strAGCo.toList.map amp2plus) = true ∧
    Tok.amp ∈ tokenizeV2 strAGCo.toList :=
  ⟨(ampersand_escape strAGCo strAGCo.toList).2.1 (by decide),
   ((ampersand_escape strAGCo strAGCo.toList).1 (by decide)).1⟩

/-- C7.  `checkDesPunct` prepends the captured separator onto the
designator exactly when it is an opening parenthesis, and both the `End`
and the `EndFallback` blocks of the V2 `Parse` pass the captured
separator (group 2) and designator (group 3) through it. -/
theorem checkDesPunct_spec (env : Env) (p : Parser) (input : String)
    (f : String → Option (String × String × String)) (m1 m2 m3 : String) :
    (checkDesPunct strLParen m3 = strLParen ++ m3) ∧
    (m2 ≠ strLParen → checkDesPunct m2 m3 = m3) ∧
    (p.reEnd = some f → f (preInput env input) = some (m1, m2, m3) →
       (Parse env p input).Designator = env.nfc (checkDesPunct m2 m3) ∧
       (Parse env p input).Position = PositionType.End) ∧
    (tryEnd env p (env.nfc input) (preInput env input) = none →
     p.reEndFallback = some f → f (preInput env input) = some (m1, m2, m3) →
       (Parse env p input).Designator = env.nfc (checkDesPunct m2 m3) ∧
       (Parse env p input).Position = PositionType.End) := by
  refine ⟨?_, ?_, ?_, ?_⟩
  · rw [checkDesPunct, if_neg (fun h => h rfl)]
  · intro h
    rw [checkDesPunct, if_pos h]
  · intro hre hf
    have hth : tryEnd env p (env.nfc input) (preInput env input) =
        some { Input := env.nfc input, Matched := true,
               ShortName := env.nfc m1,
               Designator := env.nfc (checkDesPunct m2 m3),
               Position := PositionType.End } := by
      unfold tryEnd
      rw [hre]
      simp only [hf]
    unfold Parse
    rw [hth]
    exact ⟨rfl, rfl⟩
  · intro hnone hre hf
    have hth : tryEndFallback env p (env.nfc input) (preInput env input) =
        some { Input := env.nfc input, Matched := true,
               ShortName := env.nfc m1,
               Designator := env.nfc (checkDesPunct m2 m3),
               Position := PositionType.End } := by
      unfold tryEndFallback
      rw [hre]
      simp only [hf]
    unfold Parse
    rw [hnone, hth]
    exact ⟨rfl, rfl⟩

/-- Witness for C7 at a concrete point: an `End` match on
`"Foo (LLC)"` whose captured separator is `"("` returns the designator
with the parenthesis prepended. -/
theorem checkDesPunct_spec_witness :
    (Parse idEnv parenParser inpFooParenLLC).Designator =
      strLParen ++ strLLC := by
  have h := checkDesPunct_spec idEnv parenParser inpFooParenLLC
    (fun _ => some (strFoo, strLParen, strLLC)) strFoo strLParen strLLC
  rw [(h.2.2.1 rfl rfl).1, h.1]
  rfl

theorem compileEntry_begin_skip (env : Env) (long : String) (e : entry)
    (patterns : List String) (h : e.Lead = false) :
    compileEntry env PositionType.Begin long e patterns = patterns := by
  rw [compileEntry, if_pos ⟨Or.inl rfl, by simp [h]⟩]

theorem beginAux_nil (env : Env) (ds : dataset)
    (h : ∀ kv ∈ ds, kv.2.Lead = false) :
    ∀ patterns,
      compileREPatternsAux env PositionType.Begin ds patterns = patterns := by
  induction ds with
  | nil => intro patterns; rfl
  | cons kv rest ih =>
    intro patterns
    simp only [compileREPatternsAux]
    rw [compileEntry_begin_skip env kv.1 kv.2 patterns
      (h kv (List.mem_cons_self _ _))]
    exact ih (fun kv2 hkv2 => h kv2 (List.mem_cons_of_mem _ hkv2)) patterns

/-- C8.  When no dataset entry qualifies for a tier, the V2
`compileREPatterns` returns the empty string instead of an empty
alternation, `New` leaves that tier's compiled regex absent (`none`), and
the corresponding tier block of `Parse` is skipped (returns `none`)
rather than matching against a pattern built from an empty alternation.
The `Begin` clause also derives emptiness from the entry-level condition
of the claim's example: no entry has the leading-form flag set. -/
theorem empty_tier_absent (env : Env) (ds : dataset)
    (compile3 : String → (String → Option (String × String × String)))
    (compile2 : String → (String → Option (String × String))) :
    (∀ t, compileREPatternsList env ds t = [] →
       compileREPatterns env ds t = "") ∧
    ((∀ kv ∈ ds, kv.2.Lead = false) →
       compileREPatternsList env ds PositionType.Begin = [] ∧
       (New env compile3 compile2 ds).reBegin = none) ∧
    (compileREPatternsList env ds PositionType.End = [] →
       (New env compile3 compile2 ds).reEnd = none ∧
       ∀ inputNFC s,
         tryEnd env (New env compile3 compile2 ds) inputNFC s = none) ∧
    (compileREPatternsList env ds PositionType.EndFallback = [] →
       (New env compile3 compile2 ds).reEndFallback = none ∧
       ∀ inputNFC s,
         tryEndFallback env (New env compile3 compile2 ds) inputNFC s = none) ∧
    (compileREPatternsList env ds PositionType.EndCont = [] →
       (New env compile3 compile2 ds).reEndCont = none ∧
       ∀ inputNFC s,
         tryEndCont env (New env compile3 compile2 ds) inputNFC s = none) ∧
    (compileREPatternsList env ds PositionType.Begin = [] →
       (New env compile3 compile2 ds).reBegin = none ∧
       ∀ inputNFC s,
         tryBegin env (New env compile3 compile2 ds) inputNFC s = none) ∧
    (compileREPatternsList env ds PositionType.BeginFallback = [] →
       (New env compile3 compile2 ds).reBeginFallback = none ∧
       ∀ inputNFC s,
         tryBeginFallback env (New env compile3 compile2 ds) inputNFC s =
           none) := by
  have hpat : ∀ t, compileREPatternsList env ds t = [] →
      compileREPatterns env ds t = "" := by
    intro t h
    rw [compileREPatterns, if_pos h]
  refine ⟨hpat, ?_, ?_, ?_, ?_, ?_, ?_⟩
  · intro hlead
    have hlist : compileREPatternsList env ds PositionType.Begin = [] :=
      beginAux_nil env ds hlead []
    refine ⟨hlist, ?_⟩
    simp [New, hpat PositionType.Begin hlist]
  · intro hlist
    have hfield : (New env compile3 compile2 ds).reEnd = none := by
      simp [New, hpat PositionType.End hlist]
    refine ⟨hfield, fun inputNFC s => ?_⟩
    unfold tryEnd
    rw [hfield]
  · intro hlist
    have hfield : (New env compile3 compile2 ds).reEndFallback = none := by
      simp [New, hpat PositionType.EndFallback hlist]
    refine ⟨hfield, fun inputNFC s => ?_⟩
    unfold tryEndFallback
    rw [hfield]
  · intro hlist
    have hfield : (New env compile3 compile2 ds).reEndCont = none := by
      simp [New, hpat PositionType.EndCont hlist]
    refine ⟨hfield, fun inputNFC s => ?_⟩
    unfold tryEndCont
    rw [hfield]
  · intro hlist
    have hfield : (New env compile3 compile2 ds).reBegin = none := by
      simp [New, hpat PositionType.Begin hlist]
    refine ⟨hfield, fun inputNFC s => ?_⟩
    unfold tryBegin
    rw [hfield]
  · intro hlist
    have hfield : (New env compile3 compile2 ds).reBeginFallback = none := by
      simp [New, hpat PositionType.BeginFallback hlist]
    refine ⟨hfield, fun inputNFC s => ?_⟩
    unfold tryBeginFallback
    rw [hfield]

/-- Witness for C8 at a concrete point: over a dataset with no
leading-form entry, the constructed parser has no `Begin` pattern and the
`Begin` block of `Parse` is skipped. -/
theorem empty_tier_absent_witness :
    (New idEnv nullCompile3 nullCompile2 leadFreeDataset).reBegin = none ∧
    tryBegin idEnv (New idEnv nullCompile3 nullCompile2 leadFreeDataset)
      inpProfound inpProfound = none :=
  ⟨((empty_tier_absent idEnv leadFreeDataset nullCompile3
      nullCompile2).2.1 (by decide)).2,
   ((empty_tier_absent idEnv leadFreeDataset nullCompile3
      nullCompile2).2.2.2.2.2.1 (by decide)).2 inpProfound inpProfound⟩

end V2

end Gocd
